import Mathlib

/-!
# Verification of the iperf2 Markov traffic model and socket transfer primitives

This file is a shallow embedding, in Lean 4, of the two source files of the
repository:

* `src/markov.c` — parsing, validation and sampling of a Markov transition
  graph (`markov_graph_init`, `markov_graph_next`, `markov_graph_set_seed`);
* `src/socket_io.c` — loop-until-complete transfer primitives (`readn`,
  `recvn`, `writen`) and the scheduled/tagged send (`writemsg_delay_tos`).

Modelling conventions:

* C `float`/`double` values are modelled as exact rationals (`ℚ`).  All float
  operations appearing in the source (addition, comparison, `fabs`) are exact
  on the values involved, so the rational model follows the source's control
  flow faithfully; rounding of decimal literals to binary floats is not
  modelled.
* Arithmetic inside executable definitions uses the kernel-reducible helpers
  `qadd`, `qlt`, `qle`, `qneg` (bridged to `+`, `<`, `≤`, `-` by lemmas below)
  so that concrete runs of the embedded functions can be settled by `decide`.
* Syscalls (`read`, `recv`, `write`) are modelled by an explicit oracle: a
  list of events giving the result of each successive call.  Running out of
  oracle events models a call that blocks forever.
* The process-wide flag `sInterupted` is threaded explicitly.  The fatal /
  non-fatal classification `FATALTCPREADERR` (declared in `util.h`, outside
  the given sources) is abstracted into the oracle event itself.
* Reads of uninitialized heap memory (a `malloc`-ed row cell never written
  because its row supplied fewer probabilities than `n`) are modelled by an
  explicit `junk` cell parameter: the value such memory happens to contain.
* Out-of-bounds array reads (the backward tie-break walk of
  `markov_graph_next` stepping below index 0) are modelled as `none`.
-/

/-! ## Kernel-reducible rational helpers

`Rat.add`, `Rat.mul`, … are `@[irreducible]`, which blocks `decide` on
concrete computations.  The embedding therefore uses its own helpers built
from `mkRat` and `Rat.blt`, which do reduce, and bridges them to the
ordinary order and field operations of `ℚ` for the symbolic proofs. -/

def qadd (a b : ℚ) : ℚ := mkRat (a.num * (b.den : ℤ) + b.num * (a.den : ℤ)) (a.den * b.den)

def qneg (a : ℚ) : ℚ := mkRat (-a.num) a.den

def qlt (a b : ℚ) : Bool := Rat.blt a b

def qle (a b : ℚ) : Bool := !(Rat.blt b a)

def qabsLt (v t : ℚ) : Bool := qlt v t && qlt (qneg v) t

theorem qlt_iff (a b : ℚ) : qlt a b = true ↔ a < b := Iff.rfl

theorem qle_iff (a b : ℚ) : qle a b = true ↔ a ≤ b := by
  unfold qle
  rw [Bool.not_eq_true']
  exact Iff.rfl

theorem qadd_eq (a b : ℚ) : qadd a b = a + b := by
  have ha : ((a.den : ℚ)) ≠ 0 := Nat.cast_ne_zero.mpr a.den_nz
  have hb : ((b.den : ℚ)) ≠ 0 := Nat.cast_ne_zero.mpr b.den_nz
  unfold qadd
  rw [Rat.mkRat_eq_div]
  push_cast
  conv_rhs => rw [← Rat.num_div_den a, ← Rat.num_div_den b, div_add_div _ _ ha hb]
  ring_nf

theorem qneg_eq (a : ℚ) : qneg a = -a := by
  have ha : ((a.den : ℚ)) ≠ 0 := Nat.cast_ne_zero.mpr a.den_nz
  unfold qneg
  rw [Rat.mkRat_eq_div]
  push_cast
  rw [neg_div, Rat.num_div_den]

theorem qabsLt_iff (v t : ℚ) : qabsLt v t = true ↔ |v| < t := by
  unfold qabsLt
  rw [Bool.and_eq_true, qlt_iff, qlt_iff, qneg_eq, abs_lt]
  constructor
  · rintro ⟨h1, h2⟩
    exact ⟨by linarith, h1⟩
  · rintro ⟨h1, h2⟩
    exact ⟨h2, by linarith⟩

/-! ## `markov.c`: float comparison macros

```c
#define FLOATTOLERANCE 0.00001
#define FloatEqualZero(val) (fabs(val) < FLOATTOLERANCE)
#define FloatLessThanZero(val) (val < 0.0)
#define FloatLessThanOne(val) ((1.0 - val) >  FLOATTOLERANCE)
#define FloatGreaterThanOne(val) ((val - 1.0) > FLOATTOLERANCE)
```
-/

def FLOATTOLERANCE : ℚ := mkRat 1 100000

def FloatEqualZero (v : ℚ) : Bool := qabsLt v FLOATTOLERANCE

def FloatLessThanZero (v : ℚ) : Bool := qlt v (mkRat 0 1)

def FloatLessThanOne (v : ℚ) : Bool := qlt FLOATTOLERANCE (qadd (mkRat 1 1) (qneg v))

def FloatGreaterThanOne (v : ℚ) : Bool := qlt FLOATTOLERANCE (qadd v (mkRat (-1) 1))

theorem floattolerance_eq : FLOATTOLERANCE = 1 / 100000 := by
  unfold FLOATTOLERANCE
  rw [Rat.mkRat_eq_div]
  norm_num

theorem floatEqualZero_iff (v : ℚ) :
    FloatEqualZero v = true ↔ |v| < 1 / 100000 := by
  unfold FloatEqualZero
  rw [qabsLt_iff, floattolerance_eq]

theorem floatLessThanZero_iff (v : ℚ) : FloatLessThanZero v = true ↔ v < 0 := by
  unfold FloatLessThanZero
  rw [qlt_iff]
  constructor
  · intro h
    have : (mkRat 0 1 : ℚ) = 0 := by rw [Rat.mkRat_eq_div]; norm_num
    linarith [this ▸ h]
  · intro h
    have : (mkRat 0 1 : ℚ) = 0 := by rw [Rat.mkRat_eq_div]; norm_num
    rw [this]
    exact h

theorem floatLessThanOne_iff (v : ℚ) :
    FloatLessThanOne v = true ↔ 1 / 100000 < 1 - v := by
  unfold FloatLessThanOne
  rw [qlt_iff, qadd_eq, qneg_eq, floattolerance_eq]
  have : (mkRat 1 1 : ℚ) = 1 := by rw [Rat.mkRat_eq_div]; norm_num
  rw [this]
  constructor
  · intro h; linarith
  · intro h; linarith

theorem floatGreaterThanOne_iff (v : ℚ) :
    FloatGreaterThanOne v = true ↔ 1 / 100000 < v - 1 := by
  unfold FloatGreaterThanOne
  rw [qlt_iff, qadd_eq, floattolerance_eq]
  have : (mkRat (-1) 1 : ℚ) = -1 := by rw [Rat.mkRat_eq_div]; norm_num
  rw [this]
  constructor
  · intro h; linarith
  · intro h; linarith

/-! ## `markov.c`: string utilities

The tokenization of `markov_graph_init` is `strtok`-based: tokens are the
maximal nonempty runs of non-delimiter characters.  `deblank` strips every
space character (and only spaces) in place before parsing. -/

def deblank (cs : List Char) : List Char := cs.filter (fun c => !(c = ' '))

/-- Split on a delimiter character, keeping (possibly empty) pieces. -/
def splitOnChar (d : Char) : List Char → List (List Char)
  | [] => [[]]
  | c :: t =>
    match splitOnChar d t with
    | [] => [[]]
    | cur :: rest => if c = d then [] :: cur :: rest else (c :: cur) :: rest

/-- `strtok`-style tokenization: maximal nonempty runs of non-`d` characters. -/
def tokenize (d : Char) (cs : List Char) : List (List Char) :=
  (splitOnChar d cs).filter (fun t => !(t = []))

/-- Split at the first occurrence of `d`: the piece before it and the whole
rest after it (which may itself contain further copies of `d`).  This models
the single `strtok(bra_next, "|")` call followed by the pointer arithmetic
`pos += strlen(pos) + 1` of `markov_graph_init`.  `none` when `d` does not
occur (in that case the C code walks out of the current segment, which the
well-formedness hypotheses of the theorems below exclude). -/
def splitAtFirst (d : Char) : List Char → Option (List Char × List Char)
  | [] => none
  | c :: t =>
    if c = d then some ([], t)
    else (splitAtFirst d t).map (fun pr => (c :: pr.1, pr.2))

/-- Numeric value of a digit run (most significant first). -/
def digitsVal (cs : List Char) : ℕ :=
  cs.foldl (fun a c => 10 * a + (c.toNat - 48)) 0

/-- Model of C `atoi` on the label token: optional sign, then a maximal digit
prefix; anything else stops the scan; no digits gives 0. -/
def atoiZ (cs0 : List Char) : ℤ :=
  let cs := cs0.dropWhile (fun c => c.isWhitespace)
  match cs with
  | '-' :: t => -(digitsVal (t.takeWhile (fun c => c.isDigit)) : ℤ)
  | '+' :: t => (digitsVal (t.takeWhile (fun c => c.isDigit)) : ℤ)
  | _ => (digitsVal (cs.takeWhile (fun c => c.isDigit)) : ℤ)

/-- Exponent part of a float literal: `'e'`/`'E'`, optional sign, digits.
Returns the exponent and the unconsumed rest; if the digits are missing the
whole exponent part is left unconsumed (as `strtof` backtracks it). -/
def parseExp : List Char → ℤ × List Char
  | [] => (0, [])
  | c :: t =>
    if c = 'e' ∨ c = 'E' then
      match t with
      | '-' :: u =>
        let ds := u.takeWhile (fun x => x.isDigit)
        if ds = [] then (0, c :: t) else (-(digitsVal ds : ℤ), u.dropWhile (fun x => x.isDigit))
      | '+' :: u =>
        let ds := u.takeWhile (fun x => x.isDigit)
        if ds = [] then (0, c :: t) else ((digitsVal ds : ℤ), u.dropWhile (fun x => x.isDigit))
      | _ =>
        let ds := t.takeWhile (fun x => x.isDigit)
        if ds = [] then (0, c :: t) else ((digitsVal ds : ℤ), t.dropWhile (fun x => x.isDigit))
    else (0, c :: t)

/-- The exact rational value of a decimal float literal
`(sign, int digits, fraction digits, exponent)`. -/
def decimalVal (neg : Bool) (ip fp : List Char) (ex : ℤ) : ℚ :=
  let base : ℤ := (digitsVal ip : ℤ) * (10 : ℤ) ^ fp.length + (digitsVal fp : ℤ)
  let signed : ℤ := if neg then -base else base
  mkRat (signed * (10 : ℤ) ^ (ex.toNat)) ((10 : ℕ) ^ (fp.length + (-ex).toNat))

/-- Model of C `strtof` restricted to decimal literals, combined with the
`*end != '\0'` check of `markov_graph_init`: `some v` iff the entire token is
a valid decimal float (optional sign, digits with optional fraction, optional
exponent) and `v` is its exact value; `none` on any leftover characters or on
a token with no digits.  Hex floats, `inf` and `nan` are not modelled; the
well-formedness hypotheses below restrict tokens to decimal characters. -/
def strtofQ (cs0 : List Char) : Option ℚ :=
  let cs := cs0.dropWhile (fun c => c.isWhitespace)
  let sgn : Bool × List Char :=
    match cs with
    | '-' :: t => (true, t)
    | '+' :: t => (false, t)
    | _ => (false, cs)
  let ip := sgn.2.takeWhile (fun c => c.isDigit)
  let cs2 := sgn.2.dropWhile (fun c => c.isDigit)
  let fprest : List Char × List Char :=
    match cs2 with
    | '.' :: t => (t.takeWhile (fun c => c.isDigit), t.dropWhile (fun c => c.isDigit))
    | _ => ([], cs2)
  if ip = [] ∧ fprest.1 = [] then none
  else
    let er := parseExp fprest.2
    if er.2 = [] then some (decimalVal sgn.1 ip fprest.1 er.1) else none

/-! ## `markov.c`: data model and graph construction -/

/-- `struct markov_entry`: one transition matrix cell.  `value` is the label
(packet length) of the destination column's state (written by the fill pass),
`len` is the row's own declared length (written only at column 0),
`prob`/`prob_bound` are the transition probability and its running cumulative
bound. -/
structure MarkovEntry where
  value : ℤ
  len : ℤ
  prob : ℚ
  prob_bound : ℚ
deriving Repr, DecidableEq

/-- The content of a `malloc`-ed cell that is never written: all fields
arbitrary.  Used as the default for in-bounds reads that cannot occur. -/
def defaultEntry : MarkovEntry := ⟨0, 0, mkRat 0 1, mkRat 0 1⟩

/-- `struct markov_graph`: the fields used by `markov.c` (`count`, `entrys`,
`cur_row`, `cur_col`, `seed`).  `entrys` is the `count × count` matrix, one
inner list per row. -/
structure MarkovGraph where
  count : ℕ
  entrys : List (List MarkovEntry)
  cur_row : ℕ
  cur_col : ℕ
  seed : ℤ
deriving Repr, DecidableEq

/-- `tmp[kx][cx].prob_bound = FloatEqualZero(...) ? prevtot : (prob + prevtot)`
(line 159): a probability `≈ 0` leaves the running bound unchanged. -/
def nextBound (p prevtot : ℚ) : ℚ := if FloatEqualZero p then prevtot else qadd p prevtot

/-- The inner probability-token loop of `markov_graph_init` (lines 142-170):
parse each token with `strtof`, reject a partial parse, reject a probability
`< 0` or greater than `1` beyond tolerance, compute the running
`prob_bound` (a probability `≈ 0` leaves the bound unchanged), and reject a
bound greater than `1` beyond tolerance.  `none` models the
`goto ERR_EXIT` with the graph freed.  The parsed cells keep the `junk`
memory in their `value`/`len` fields (those of column 0 are overwritten with
the row label by `setRowLabel` below). -/
def parseProbCells (junk : MarkovEntry) : List (List Char) → ℚ → Option (List MarkovEntry)
  | [], _ => some []
  | tok :: rest, prevtot =>
    match strtofQ tok with
    | none => none
    | some p =>
      if FloatLessThanZero p || FloatGreaterThanOne p then none
      else if FloatGreaterThanOne (nextBound p prevtot) then none
      else (parseProbCells junk rest (nextBound p prevtot)).map
        (fun cs => { junk with prob := p, prob_bound := nextBound p prevtot } :: cs)

/-- The memory of one freshly `malloc`-ed row of `count` cells after the
token loop wrote the first `cells.length` of them: parsed cells first, then
`junk` for cells never written (row shorter than `count`); cells beyond
`count` are written out of bounds in C and are not part of the row. -/
def rowOf (junk : MarkovEntry) : ℕ → List MarkovEntry → List MarkovEntry
  | 0, _ => []
  | n + 1, [] => junk :: rowOf junk n []
  | n + 1, c :: cs => c :: rowOf junk n cs

/-- `tmp[kx][0].value = atoi(pos); tmp[kx][0].len = tmp[kx][0].value;`:
the row label is written into cell 0 of the row's memory. -/
def setRowLabel (label : ℤ) : List MarkovEntry → List MarkovEntry
  | [] => []
  | c :: t => { c with value := label, len := label } :: t

/-- One row of `markov_graph_init` (lines 130-186): split the segment at its
first `'|'`, read the label with `atoi`, tokenize the probability list on
`','`, run the token loop, and apply the final check
`FloatLessThanOne(tmp[kx][bracnt-1].prob_bound)` on the memory cell at
column `count - 1` (which is `junk` when the row supplied fewer than `count`
probabilities).  A row with a number of tokens different from `count` only
prints a warning.  `none` for a segment without `'|'` models the undefined
pointer walk out of the segment (excluded by the well-formedness
hypotheses). -/
def buildRow (junk : MarkovEntry) (count : ℕ) (seg : List Char) : Option (List MarkovEntry) :=
  match splitAtFirst '|' seg with
  | none => none
  | some pr =>
    let label := atoiZ pr.1
    match parseProbCells junk (tokenize ',' pr.2) (mkRat 0 1) with
    | none => none
    | some cells =>
      let row := setRowLabel label (rowOf junk count cells)
      if FloatLessThanOne ((row.getD (count - 1) defaultEntry).prob_bound) then none
      else some row

/-- The `while (kx < bracnt)` row loop. -/
def buildRows (junk : MarkovEntry) (count : ℕ) : List (List Char) → Option (List (List MarkovEntry))
  | [] => some []
  | seg :: rest =>
    match buildRow junk count seg with
    | none => none
    | some row => (buildRows junk count rest).map (fun rs => row :: rs)

/-- The column labels read by the fill pass: `tmp[cx][0].len` for each row
index `cx`. -/
def colLabels (rows : List (List MarkovEntry)) : List ℤ :=
  rows.map (fun r => (r.getD 0 defaultEntry).len)

/-- Write `value := label of column cx` across one row (positional zip). -/
def setValues : List ℤ → List MarkovEntry → List MarkovEntry
  | l :: ls, c :: cs => { c with value := l } :: setValues ls cs
  | _, _ => []

/-- The fill pass (lines 188-192): `tmp[rx][cx].value = tmp[cx][0].len`. -/
def fillValues (rows : List (List MarkovEntry)) : List (List MarkovEntry) :=
  rows.map (setValues (colLabels rows))

/-- `markov_graph_init` (lines 99-199).  The input string is de-blanked, cut
into `'<'`-introduced segments, and each segment becomes one row.  With no
segment at all (`bracnt == 0`) the `calloc`-ed graph is returned as is:
non-NULL, zero states, no matrix.  On any row failure the partial graph is
freed and NULL (`none`) returned.  `junk` is the content of uninitialized
row memory; allocation sizes and allocation failure are not modelled. -/
def markov_graph_init (junk : MarkovEntry) (s : String) : Option MarkovGraph :=
  let segs := tokenize '<' (deblank s.data)
  let count := segs.length
  if count = 0 then some ⟨0, [], 0, 0, 0⟩
  else
    match buildRows junk count segs with
    | none => none
    | some rows => some ⟨count, fillValues rows, 0, 0, 0⟩

/-! ## `markov.c`: sampling -/

/-- The forward scan of `markov_graph_next` (line 206):
`while ((ix < graph->count) && (tmp[cur_row][ix++].prob_bound < pull_rand))`.
Because of the post-increment inside the condition, the loop leaves `ix` one
past the first column whose bound is `≥ r`, or at `count` when every bound is
below `r`.  Iteration is over the row cells (`row` has exactly `count` cells
for every graph built by `markov_graph_init`). -/
def scanCells (r : ℚ) : List MarkovEntry → ℕ → ℕ
  | [], ix => ix
  | c :: rest, ix => if qlt c.prob_bound r then scanCells r rest (ix + 1) else ix + 1

/-- The backward tie-break walk (line 207):
`while (FloatEqualZero(tmp[cur_row][--ix].prob)) {}`.
Starting value is the `ix` the forward scan left.  `none` models the walk
decrementing past column 0 into `tmp[cur_row][-1]` — an out-of-bounds read
(undefined behavior in C). -/
def backWalk (row : List MarkovEntry) : ℕ → Option ℕ
  | 0 => none
  | ix + 1 =>
    if FloatEqualZero (row.getD ix defaultEntry).prob then backWalk row ix
    else some ix

/-- `markov_graph_next` (lines 201-210) with the uniform draw
`pull_rand = rand()/RAND_MAX` passed explicitly as `r`.  Returns the label
`tmp[cur_row][0].len` of the newly chosen row together with the updated
graph; `none` models the out-of-bounds backward walk. -/
def markov_graph_next (g : MarkovGraph) (r : ℚ) : Option (ℤ × MarkovGraph) :=
  match backWalk (g.entrys.getD g.cur_row [])
      (scanCells r ((g.entrys.getD g.cur_row []).take g.count) 0) with
  | none => none
  | some ix => some (((g.entrys.getD ix []).getD 0 defaultEntry).len, { g with cur_row := ix })

/-- `markov_graph_set_seed` (lines 212-215): stores the seed in the graph and
reseeds the draw source (`srand`). -/
def markov_graph_set_seed (g : MarkovGraph) (seed : ℤ) : MarkovGraph :=
  { g with seed := seed }

/-- Modelled from the spec: the C library draw source `srand`/`rand` used by
`markov_graph_next` is outside the given sources; per §4.1 of the spec,
`set_seed` "resets the sampling draw source deterministically".  The model is
the portable C `rand` reference implementation (a linear congruential
generator); only its determinism in the seed matters for the claims. -/
def lcgNext (st : ℕ) : ℕ := (st * 1103515245 + 12345) % 2147483648

/-- Modelled from the spec: the first `n` draws `rand()/RAND_MAX` after
`srand(seed)` set the generator state to `seed`. -/
def randDraws (st : ℕ) : ℕ → List ℚ
  | 0 => []
  | n + 1 =>
    let st2 := lcgNext st
    mkRat (st2 / 65536 % 32768 : ℕ) 32767 :: randDraws st2 n

/-- The `(state, label)` trace of successive `markov_graph_next` calls, one
per draw; stops at the out-of-bounds walk (`none`). -/
def markov_trace (g : MarkovGraph) : List ℚ → List (ℕ × ℤ)
  | [] => []
  | r :: rs =>
    match markov_graph_next g r with
    | none => []
    | some pr => (pr.2.cur_row, pr.1) :: markov_trace pr.2 rs

/-! ## Well-formedness of specification strings

The hypotheses under which the `strtok`/pointer-walk tokenization of
`markov_graph_init` coincides with the segment model above: single `'<'`
separators (no empty segments between two `'<'`), each segment containing a
`'|'` with a nonempty label part, and probability tokens built only from
decimal characters (no hex/`inf`/`nan` forms of `strtof`, no stray
whitespace other than the stripped spaces). -/

def noDoubleSep : List Char → Bool
  | [] => true
  | [_] => true
  | a :: b :: t => !(a = '<' ∧ b = '<') && noDoubleSep (b :: t)

def simpleNumChar (c : Char) : Bool :=
  c.isDigit || c = '+' || c = '-' || c = '.' || c = 'e' || c = 'E'

/-- The `'<'`-introduced segments of a specification string. -/
def segsOf (s : String) : List (List Char) := tokenize '<' (deblank s.data)

/-- The probability tokens of one segment. -/
def toksOfSeg (seg : List Char) : List (List Char) :=
  match splitAtFirst '|' seg with
  | none => []
  | some pr => tokenize ',' pr.2

/-- Domain of faithfulness of the embedding of `markov_graph_init`. -/
def specWF (s : String) : Bool :=
  noDoubleSep (deblank s.data) &&
  (segsOf s).all (fun seg =>
    match splitAtFirst '|' seg with
    | none => false
    | some pr => !(pr.1 = []) && (tokenize ',' pr.2).all (fun t => t.all simpleNumChar))

/-- Every segment supplies at least `n` probability tokens, `n` the number of
segments: no row leaves cells of its `malloc`-ed memory uninitialized. -/
def specComplete (s : String) : Bool :=
  (segsOf s).all (fun seg =>
    match splitAtFirst '|' seg with
    | none => false
    | some pr => (segsOf s).length ≤ (tokenize ',' pr.2).length)

/-! ## `socket_io.c`: reliable transfer primitives

Each primitive is driven by an oracle list: the result of each successive
underlying syscall.  An exhausted oracle with work remaining models a call
that blocks forever (`blocked`). -/

/-- Result of one `read()` call: `bytes k` a positive transfer, `eof` a
return of 0, `eintr` a `-1` with `errno == EINTR`, `errOther` a `-1` with
any other `errno`. -/
inductive ReadEv where
  | bytes (k : ℕ)
  | eof
  | eintr
  | errOther
deriving Repr, DecidableEq

/-- Return contract of `readn`: `done m` the count `inLen - nleft`,
`sockErr` the sentinel `SOCKET_ERROR` (-1), `blocked` a run whose next
syscall never returns. -/
inductive XferRes where
  | done (m : ℕ)
  | sockErr
  | blocked
deriving Repr, DecidableEq

/-- The loop of `readn` (lines 83-95) over remaining events and `nleft`. -/
def readnGo (inLen : ℕ) : List ReadEv → ℕ → XferRes
  | _, 0 => .done inLen
  | [], _ => .blocked
  | .eintr :: rest, nleft => readnGo inLen rest nleft
  | .errOther :: _, _ => .sockErr
  | .eof :: _, nleft => .done (inLen - nleft)
  | .bytes k :: rest, nleft => readnGo inLen rest (nleft - k)

/-- `readn` (lines 71-98): read exactly `inLen` bytes, retrying `EINTR` with
no progress, stopping at EOF with the short count, `-1` on any other
error. -/
def readn (inLen : ℕ) (evs : List ReadEv) : XferRes := readnGo inLen evs inLen

/-- Result of one `write()` call inside `writen`: `wrote k` a positive
transfer, `wzero` a 0 return (write timeout, retried), `werrRetry` a `-1`
with `EINTR`/`EAGAIN`/`EWOULDBLOCK`, `werrFatal` a `-1` with any other
`errno`. -/
inductive WriteEv where
  | wrote (k : ℕ)
  | wzero
  | werrRetry
  | werrFatal
deriving Repr, DecidableEq

/-- Outcome of `writen`: its `int` return `ret = inLen - nleft` (note the
source returns the byte count, not `-1`, even on the fatal path), the final
`*count` of write attempts, and whether the fatal-error diagnostic
(`FAIL: writen errno = ...`) was printed. -/
structure WritenOut where
  ret : ℕ
  count : ℕ
  failed : Bool
deriving Repr, DecidableEq

/-- The loop of `writen` (lines 228-250).  `intr` is the process-wide flag
`sInterupted` polled at each iteration (`writen` never writes it: the
`sInterupted = 1` line in its fatal branch is commented out); it is constant
during the run because only an external actor could change it.  `none`
models an exhausted oracle (a `write` that never returns). -/
def writenGo (inLen : ℕ) (intr : Bool) : List WriteEv → ℕ → ℕ → Option WritenOut
  | _, 0, cnt => some ⟨inLen, cnt, false⟩
  | evs, nleft + 1, cnt =>
    if intr then some ⟨inLen - (nleft + 1), cnt, false⟩
    else
      match evs with
      | [] => none
      | .wrote k :: rest => writenGo inLen intr rest (nleft + 1 - k) (cnt + 1)
      | .wzero :: rest => writenGo inLen intr rest (nleft + 1) (cnt + 1)
      | .werrRetry :: rest => writenGo inLen intr rest (nleft + 1) (cnt + 1)
      | .werrFatal :: _ => some ⟨inLen - (nleft + 1), cnt + 1, true⟩

/-- `writen` (lines 214-253) with the caller's `*count` starting value. -/
def writen (inLen : ℕ) (intr : Bool) (evs : List WriteEv) (count0 : ℕ) : Option WritenOut :=
  writenGo inLen intr evs inLen count0

/-- Result of the secondary `MSG_DONTWAIT` probe of `recvn` peek mode after
a `recv` returned 0: `pClosed` (probe returns 0, orderly peer shutdown),
`pWouldBlock` (probe `-1` with `EWOULDBLOCK`/`EAGAIN`, no data yet),
`pOther` (any other probe outcome; the switch is left and the loop
continues). -/
inductive ProbeRes where
  | pClosed
  | pWouldBlock
  | pOther
deriving Repr, DecidableEq

/-- Result of one `recv()` call inside `recvn`: `ok k` a positive transfer,
`closed p` a 0 return carrying the probe outcome (unused in blocking mode),
`fatalErr`/`nonfatalErr` a `-1` classified by `FATALTCPREADERR` (the
classification itself lives in `util.h`, outside the given sources, and is
abstracted into the event). -/
inductive RecvEv where
  | ok (k : ℕ)
  | closed (p : ProbeRes)
  | fatalErr
  | nonfatalErr
deriving Repr, DecidableEq

/-- Return contract of `recvn`: `bytes m` a byte count, `fatal` the sentinel
`SOCKET_ERROR` (-1), `nonfatal` the sentinel `IPERF_SOCKET_ERROR_NONFATAL`,
`blocked` a run whose next syscall never returns. -/
inductive RecvnRes where
  | bytes (m : ℕ)
  | fatal
  | nonfatal
  | blocked
deriving Repr, DecidableEq

/-- The blocking-complete loop of `recvn` (lines 165-200): returns the final
`nread` together with the final value of `sInterupted`.  A fatal `recv`
error sets the flag to 1 and returns `SOCKET_ERROR`; a non-fatal error
returns without touching it; a 0 return (peer close) returns the progress
`inLen - nleft`; the loop also exits returning the current progress when the
flag was already set on entry to the iteration. -/
def recvnGo (inLen : ℕ) : List RecvEv → ℕ → Bool → RecvnRes × Bool
  | _, 0, intr => (.bytes inLen, intr)
  | evs, nleft + 1, intr =>
    if intr then (.bytes (inLen - (nleft + 1)), intr)
    else
      match evs with
      | [] => (.blocked, intr)
      | .ok k :: rest => recvnGo inLen rest (nleft + 1 - k) intr
      | .fatalErr :: _ => (.fatal, true)
      | .nonfatalErr :: _ => (.nonfatal, intr)
      | .closed _ :: _ => (.bytes (inLen - (nleft + 1)), intr)

/-- The `MSG_PEEK` loop of `recvn` (lines 118-161): `nleft` is never
decremented (peeking does not consume), the loop exits when a peek returns
exactly `inLen` bytes; a 0 return triggers the `MSG_DONTWAIT` probe whose
`pClosed` outcome ends the call with 0 bytes; fatal errors set the flag and
return `SOCKET_ERROR`; non-fatal errors and inconclusive probes loop. -/
def recvnPeekGo (inLen : ℕ) : List RecvEv → RecvnRes × Bool
  | [] => (.blocked, false)
  | .ok k :: rest => if k = inLen then (.bytes inLen, false) else recvnPeekGo inLen rest
  | .fatalErr :: _ => (.fatal, true)
  | .nonfatalErr :: rest => recvnPeekGo inLen rest
  | .closed p :: rest =>
    if p = ProbeRes.pClosed then (.bytes 0, false) else recvnPeekGo inLen rest

/-- `recvn` (lines 106-204): `peek` selects the `MSG_PEEK` branch.  With the
interrupt flag already set on entry both loops are skipped and the initial
`nread = 0` is returned with the flag untouched. -/
def recvn (inLen : ℕ) (peek : Bool) (evs : List RecvEv) (intr : Bool) : RecvnRes × Bool :=
  if peek then
    if intr then (.bytes 0, intr) else recvnPeekGo inLen evs
  else recvnGo inLen evs inLen intr

/-! ## `socket_io.c`: scheduled/tagged send fallback -/

/-- Result of the single `write()` of the non-Linux `writemsg_delay_tos`
stub: `wr k` a transfer of `k` bytes, `werr` a `-1`. -/
inductive WriteCallRes where
  | wr (k : ℕ)
  | werr
deriving Repr, DecidableEq

/-- The `int` a single `write()` returns. -/
def writeCallRet : WriteCallRes → ℤ
  | .wr k => (k : ℤ)
  | .werr => -1

/-- The stub `writemsg_delay_tos` (lines 354-358) compiled when
`HAVE_DECL_SO_TXTIME` is absent: it warns and falls back to one ordinary
`write` of the same buffer, ignoring `delay_ns` and `tos_value`; its return
value is whatever that single `write` returns. -/
def writemsg_delay_tos (inLen : ℕ) (delay_ns : ℕ) (tos_value : ℤ) (w : WriteCallRes) : ℤ :=
  writeCallRet w

/-! ## Oracle bookkeeping for the transfer theorems -/

/-- Read events that make progress without EOF, fatal error or
cancellation: positive transfers and `EINTR` retries. -/
def progressOnlyR (evs : List ReadEv) : Bool :=
  evs.all (fun e =>
    match e with
    | .bytes k => 1 ≤ k
    | .eintr => true
    | _ => false)

/-- Total bytes moved by a read event list. -/
def bytesSumR (evs : List ReadEv) : ℕ :=
  (evs.map (fun e => match e with | .bytes k => k | _ => 0)).sum

/-- Write events that make progress without fatal error: positive transfers,
0 returns and `EINTR`/`EAGAIN` retries. -/
def progressOnlyW (evs : List WriteEv) : Bool :=
  evs.all (fun e =>
    match e with
    | .wrote k => 1 ≤ k
    | .wzero => true
    | .werrRetry => true
    | .werrFatal => false)

/-- Total bytes moved by a write event list. -/
def bytesSumW (evs : List WriteEv) : ℕ :=
  (evs.map (fun e => match e with | .wrote k => k | _ => 0)).sum

/-! ## Transfer loop lemmas -/

theorem readnGo_zero (inLen : ℕ) (evs : List ReadEv) : readnGo inLen evs 0 = .done inLen := by
  cases evs with
  | nil => rfl
  | cons e t => cases e <;> rfl

/-- Running `readn`'s loop through a prefix of progress-only events moves
`bytesSumR` bytes and consumes the prefix. -/
theorem readnGo_progress (inLen : ℕ) :
    ∀ (evs rest : List ReadEv) (nleft : ℕ), progressOnlyR evs = true →
      bytesSumR evs ≤ nleft →
      readnGo inLen (evs ++ rest) nleft = readnGo inLen rest (nleft - bytesSumR evs) := by
  intro evs
  induction evs with
  | nil =>
    intro rest nleft _ _
    simp [bytesSumR]
  | cons e t ih =>
    intro rest nleft hp hs
    cases e with
    | bytes k =>
      have hp1 : 1 ≤ k ∧ progressOnlyR t = true := by
        simpa [progressOnlyR] using hp
      have hsum : bytesSumR (ReadEv.bytes k :: t) = k + bytesSumR t := by
        simp [bytesSumR]
      rw [hsum] at hs
      obtain ⟨m, hm⟩ : ∃ m, nleft = m + 1 := ⟨nleft - 1, by omega⟩
      subst hm
      show readnGo inLen (ReadEv.bytes k :: (t ++ rest)) (m + 1) = _
      have hstep : readnGo inLen (ReadEv.bytes k :: (t ++ rest)) (m + 1)
          = readnGo inLen (t ++ rest) (m + 1 - k) := rfl
      rw [hstep, ih rest (m + 1 - k) hp1.2 (by omega), hsum]
      congr 1
      omega
    | eintr =>
      have hp1 : progressOnlyR t = true := by
        simpa [progressOnlyR] using hp
      have hsum : bytesSumR (ReadEv.eintr :: t) = bytesSumR t := by
        simp [bytesSumR]
      rw [hsum] at hs
      cases nleft with
      | zero =>
        rw [readnGo_zero]
        have h0 : bytesSumR t = 0 := by omega
        rw [hsum, h0, readnGo_zero]
      | succ m =>
        have hstep : readnGo inLen (ReadEv.eintr :: (t ++ rest)) (m + 1)
            = readnGo inLen (t ++ rest) (m + 1) := rfl
        show readnGo inLen (ReadEv.eintr :: (t ++ rest)) (m + 1) = _
        rw [hstep, ih rest (m + 1) hp1 hs, hsum]
    | eof => simp [progressOnlyR] at hp
    | errOther => simp [progressOnlyR] at hp

/-- C6: for every request of `n > 0` bytes, `readn` on a stream delivering
`m < n` bytes and then end-of-stream returns exactly `m` (not an error); an
`EINTR` read is retried with zero progress and is invisible to the caller;
any other read error makes `readn` return the error sentinel `-1`
(`sockErr`). -/
theorem readn_eof_eintr_error_contract :
    (∀ (n : ℕ) (evs rest : List ReadEv), 0 < n → progressOnlyR evs = true →
        bytesSumR evs < n →
        readn n (evs ++ ReadEv.eof :: rest) = XferRes.done (bytesSumR evs)) ∧
    (∀ (n : ℕ) (evs : List ReadEv) (nleft : ℕ),
        readnGo n (ReadEv.eintr :: evs) nleft = readnGo n evs nleft) ∧
    (∀ (n : ℕ) (evs rest : List ReadEv), 0 < n → progressOnlyR evs = true →
        bytesSumR evs < n →
        readn n (evs ++ ReadEv.errOther :: rest) = XferRes.sockErr) := by
  refine ⟨?_, ?_, ?_⟩
  · intro n evs rest hn hp hs
    unfold readn
    rw [readnGo_progress n evs (ReadEv.eof :: rest) n hp (by omega)]
    obtain ⟨m, hm⟩ : ∃ m, n - bytesSumR evs = m + 1 := ⟨n - bytesSumR evs - 1, by omega⟩
    rw [hm]
    have hstep : readnGo n (ReadEv.eof :: rest) (m + 1) = XferRes.done (n - (m + 1)) := rfl
    rw [hstep]
    congr 1
    omega
  · intro n evs nleft
    cases nleft with
    | zero => rw [readnGo_zero, readnGo_zero]
    | succ m => rfl
  · intro n evs rest hn hp hs
    unfold readn
    rw [readnGo_progress n evs (ReadEv.errOther :: rest) n hp (by omega)]
    obtain ⟨m, hm⟩ : ∃ m, n - bytesSumR evs = m + 1 := ⟨n - bytesSumR evs - 1, by omega⟩
    rw [hm]
    rfl

/-- Witness for C6 at a concrete stream: requesting 3 bytes from a stream
delivering 2 bytes then EOF returns 2; an interposed EINTR is invisible;
2 bytes then a non-EINTR error returns the sentinel. -/
theorem readn_eof_eintr_error_witness :
    readn 3 [ReadEv.bytes 2, ReadEv.eof] = XferRes.done 2 ∧
    readnGo 3 [ReadEv.eintr, ReadEv.bytes 2] 3 = readnGo 3 [ReadEv.bytes 2] 3 ∧
    readn 3 [ReadEv.bytes 2, ReadEv.errOther] = XferRes.sockErr := by
  refine ⟨?_, ?_, ?_⟩
  · exact readn_eof_eintr_error_contract.1 3 [ReadEv.bytes 2] [] (by decide) (by decide)
      (by decide)
  · exact readn_eof_eintr_error_contract.2.1 3 [ReadEv.bytes 2] 3
  · exact readn_eof_eintr_error_contract.2.2 3 [ReadEv.bytes 2] [] (by decide) (by decide)
      (by decide)

/-- `writen`'s loop on progress-only events covering exactly the remaining
bytes completes with the full count, no failure, and one counted write
attempt per consumed event (remaining oracle events are never attempted). -/
theorem writenGo_complete (inLen : ℕ) :
    ∀ (wevs rest : List WriteEv) (nleft cnt : ℕ), progressOnlyW wevs = true →
      bytesSumW wevs = nleft →
      ∃ k ≤ wevs.length,
        writenGo inLen false (wevs ++ rest) nleft cnt = some ⟨inLen, cnt + k, false⟩ := by
  intro wevs
  induction wevs with
  | nil =>
    intro rest nleft cnt _ hs
    have h0 : nleft = 0 := by simpa [bytesSumW] using hs.symm
    subst h0
    exact ⟨0, by omega, by cases rest with
      | nil => rfl
      | cons e t => cases e <;> rfl⟩
  | cons e t ih =>
    intro rest nleft cnt hp hs
    cases e with
    | wrote k =>
      have hp1 : 1 ≤ k ∧ progressOnlyW t = true := by
        simpa [progressOnlyW] using hp
      have hsum : k + bytesSumW t = nleft := by
        simpa [bytesSumW] using hs
      obtain ⟨m, hm⟩ : ∃ m, nleft = m + 1 := ⟨nleft - 1, by omega⟩
      subst hm
      have hstep : writenGo inLen false (WriteEv.wrote k :: (t ++ rest)) (m + 1) cnt
          = writenGo inLen false (t ++ rest) (m + 1 - k) (cnt + 1) := rfl
      obtain ⟨k2, hk2, hres⟩ := ih rest (m + 1 - k) (cnt + 1) hp1.2 (by omega)
      refine ⟨k2 + 1, by simpa using Nat.add_le_add_right hk2 1, ?_⟩
      show writenGo inLen false (WriteEv.wrote k :: (t ++ rest)) (m + 1) cnt = _
      rw [hstep, hres]
      congr 2
      omega
    | wzero =>
      have hp1 : progressOnlyW t = true := by
        simpa [progressOnlyW] using hp
      have hsum : bytesSumW t = nleft := by
        simpa [bytesSumW] using hs
      cases nleft with
      | zero =>
        refine ⟨0, by omega, ?_⟩
        show writenGo inLen false (WriteEv.wzero :: (t ++ rest)) 0 cnt = _
        rfl
      | succ m =>
        have hstep : writenGo inLen false (WriteEv.wzero :: (t ++ rest)) (m + 1) cnt
            = writenGo inLen false (t ++ rest) (m + 1) (cnt + 1) := rfl
        obtain ⟨k2, hk2, hres⟩ := ih rest (m + 1) (cnt + 1) hp1 hsum
        refine ⟨k2 + 1, by simpa using Nat.add_le_add_right hk2 1, ?_⟩
        show writenGo inLen false (WriteEv.wzero :: (t ++ rest)) (m + 1) cnt = _
        rw [hstep, hres]
        congr 2
        omega
    | werrRetry =>
      have hp1 : progressOnlyW t = true := by
        simpa [progressOnlyW] using hp
      have hsum : bytesSumW t = nleft := by
        simpa [bytesSumW] using hs
      cases nleft with
      | zero =>
        refine ⟨0, by omega, ?_⟩
        show writenGo inLen false (WriteEv.werrRetry :: (t ++ rest)) 0 cnt = _
        rfl
      | succ m =>
        have hstep : writenGo inLen false (WriteEv.werrRetry :: (t ++ rest)) (m + 1) cnt
            = writenGo inLen false (t ++ rest) (m + 1) (cnt + 1) := rfl
        obtain ⟨k2, hk2, hres⟩ := ih rest (m + 1) (cnt + 1) hp1 hsum
        refine ⟨k2 + 1, by simpa using Nat.add_le_add_right hk2 1, ?_⟩
        show writenGo inLen false (WriteEv.werrRetry :: (t ++ rest)) (m + 1) cnt = _
        rw [hstep, hres]
        congr 2
        omega
    | werrFatal => simp [progressOnlyW] at hp

/-- C7: for every requested length `n > 0` and every sequence of partial
transfers in which the syscalls move fewer bytes than asked (in any positive
chunks, with `EINTR`-style retries allowed) but no EOF, fatal error or
cancellation occurs, `readn` and `writen` loop until completion and return a
final transferred count exactly `n`. -/
theorem transfer_completeness :
    ∀ (n : ℕ) (revs restR : List ReadEv) (wevs restW : List WriteEv) (count0 : ℕ),
      0 < n → progressOnlyR revs = true → bytesSumR revs = n →
      progressOnlyW wevs = true → bytesSumW wevs = n →
      readn n (revs ++ restR) = XferRes.done n ∧
      ∃ k ≤ wevs.length, writen n false (wevs ++ restW) count0 = some ⟨n, count0 + k, false⟩ := by
  intro n revs restR wevs restW count0 hn hpR hsR hpW hsW
  constructor
  · unfold readn
    rw [readnGo_progress n revs restR n hpR (by omega), hsR]
    simpa using readnGo_zero n restR
  · unfold writen
    exact writenGo_complete n wevs restW n count0 hpW hsW

/-- Witness for C7: 5 bytes split 2+1+2 across reads and 3+2 across writes
(with a zero-return retry between them) complete with count 5. -/
theorem transfer_completeness_witness :
    readn 5 [ReadEv.bytes 2, ReadEv.bytes 1, ReadEv.bytes 2] = XferRes.done 5 ∧
    ∃ k ≤ 3, writen 5 false [WriteEv.wrote 3, WriteEv.wzero, WriteEv.wrote 2] 0
        = some ⟨5, 0 + k, false⟩ := by
  have h := transfer_completeness 5 [ReadEv.bytes 2, ReadEv.bytes 1, ReadEv.bytes 2] []
    [WriteEv.wrote 3, WriteEv.wzero, WriteEv.wrote 2] [] 0 (by decide) (by decide) (by decide)
    (by decide) (by decide)
  simpa using h

/-- C9 counterexample: `writemsg_delay_tos` on a capability-less platform
with `n = 2` bytes and nonzero delay, when the single fallback `write`
accepts only 1 byte (no error), returns 1, not the full buffer length 2.
The claim "absent a fatal error it returns n" is therefore false: the stub
performs one `write` with no completion loop. -/
theorem writemsg_fallback_counterexample :
    writemsg_delay_tos 2 5 0 (WriteCallRes.wr 1) = 1 ∧
    writemsg_delay_tos 2 5 0 (WriteCallRes.wr 1) ≠ 2 ∧
    writeCallRet (WriteCallRes.wr 1) ≠ -1 := by
  refine ⟨rfl, by decide, by decide⟩

/-- C9 (amended): on a platform without the control-message capability,
`writemsg_delay_tos` degrades to a single ordinary untimed, untagged write
of the same buffer: its return value is exactly that single `write`'s
result, it is independent of `delay_ns` and `tos_value`, and it equals `n`
exactly when the underlying write accepts the whole buffer. -/
theorem writemsg_fallback_amended :
    ∀ (n d1 d2 : ℕ) (t1 t2 : ℤ) (w : WriteCallRes),
      writemsg_delay_tos n d1 t1 w = writeCallRet w ∧
      writemsg_delay_tos n d1 t1 w = writemsg_delay_tos n d2 t2 w ∧
      (writeCallRet w = (n : ℤ) → writemsg_delay_tos n d1 t1 w = (n : ℤ)) := by
  intro n d1 d2 t1 t2 w
  exact ⟨rfl, rfl, fun h => h⟩

/-- Witness for C9 (amended): a 3-byte buffer fully accepted by the single
fallback write is delivered whole, with delay 7 and TOS 1 ignored. -/
theorem writemsg_fallback_witness :
    writemsg_delay_tos 3 7 1 (WriteCallRes.wr 3) = 3 ∧
    writemsg_delay_tos 3 7 1 (WriteCallRes.wr 3) = writemsg_delay_tos 3 0 (-1) (WriteCallRes.wr 3) := by
  have h := writemsg_fallback_amended 3 7 0 1 (-1) (WriteCallRes.wr 3)
  exact ⟨h.2.2 (by decide), h.2.1⟩

/-! ## C10: the interrupt-flag side effect of `recvn` -/

theorem recvnGo_flag_iff (inLen : ℕ) :
    ∀ (evs : List RecvEv) (nleft : ℕ),
      ((recvnGo inLen evs nleft false).2 = true ↔
        (recvnGo inLen evs nleft false).1 = RecvnRes.fatal) := by
  intro evs
  induction evs with
  | nil =>
    intro nleft
    cases nleft with
    | zero => simp [recvnGo]
    | succ m => simp [recvnGo]
  | cons e t ih =>
    intro nleft
    cases nleft with
    | zero => simp [recvnGo]
    | succ m =>
      cases e with
      | ok k =>
        have hstep : recvnGo inLen (RecvEv.ok k :: t) (m + 1) false
            = recvnGo inLen t (m + 1 - k) false := rfl
        rw [hstep]
        exact ih (m + 1 - k)
      | fatalErr => simp [recvnGo]
      | nonfatalErr => simp [recvnGo]
      | closed p => simp [recvnGo]

theorem recvnPeekGo_flag_iff (inLen : ℕ) :
    ∀ (evs : List RecvEv),
      ((recvnPeekGo inLen evs).2 = true ↔ (recvnPeekGo inLen evs).1 = RecvnRes.fatal) := by
  intro evs
  induction evs with
  | nil => simp [recvnPeekGo]
  | cons e t ih =>
    cases e with
    | ok k =>
      by_cases hk : k = inLen
      · simp [recvnPeekGo, hk]
      · simpa [recvnPeekGo, hk] using ih
    | fatalErr => simp [recvnPeekGo]
    | nonfatalErr => simpa [recvnPeekGo] using ih
    | closed p =>
      by_cases hp : p = ProbeRes.pClosed
      · simp [recvnPeekGo, hp]
      · simpa [recvnPeekGo, hp] using ih

/-- C10: in both blocking-complete mode and peek mode, `recvn` sets the
process-wide flag `sInterupted` exactly on the fatal-error path (where it
also returns the `SOCKET_ERROR` sentinel); no other return path (full
completion, peer close, non-fatal error, blocking) modifies the flag; and a
transfer loop entered with the flag already set aborts immediately: `recvn`
in either mode returns 0 bytes with the flag untouched, and `writen`
returns 0 bytes, performs no write attempt, and reports no failure. -/
theorem recvn_fatal_sets_interrupt_flag :
    (∀ (n : ℕ) (evs : List RecvEv),
        ((recvn n false evs false).2 = true ↔ (recvn n false evs false).1 = RecvnRes.fatal)) ∧
    (∀ (n : ℕ) (evs : List RecvEv),
        ((recvn n true evs false).2 = true ↔ (recvn n true evs false).1 = RecvnRes.fatal)) ∧
    (∀ (n : ℕ) (evs : List RecvEv), recvn n false evs true = (RecvnRes.bytes 0, true)) ∧
    (∀ (n : ℕ) (evs : List RecvEv), recvn n true evs true = (RecvnRes.bytes 0, true)) ∧
    (∀ (n cnt : ℕ) (evs : List WriteEv), writen n true evs cnt = some ⟨0, cnt, false⟩) := by
  refine ⟨?_, ?_, ?_, ?_, ?_⟩
  · intro n evs
    exact recvnGo_flag_iff n evs n
  · intro n evs
    simpa [recvn] using recvnPeekGo_flag_iff n evs
  · intro n evs
    unfold recvn
    cases n with
    | zero => simp [recvnGo]
    | succ m =>
      rw [recvnGo.eq_def]
      cases evs with
      | nil => simp
      | cons e t => simp
  · intro n evs
    rfl
  · intro n cnt evs
    unfold writen
    cases n with
    | zero => simp [writenGo]
    | succ m =>
      rw [writenGo.eq_def]
      cases evs with
      | nil => simp
      | cons e t => simp

/-! ## Further order bridges -/

theorem qlt_eq_false_iff (a b : ℚ) : qlt a b = false ↔ b ≤ a := by
  rw [Bool.eq_false_iff, Ne, qlt_iff, not_lt]

theorem floatEqualZero_eq_false_iff (v : ℚ) :
    FloatEqualZero v = false ↔ 1 / 100000 ≤ |v| := by
  rw [Bool.eq_false_iff, Ne, floatEqualZero_iff, not_lt]

/-! ## C2: the end-to-end example specification -/

def exSpec : String := "<256|0.1,0.7,0.2<1024|0.3,0.4,0.3<1470|0.4,0.4,0.2"

/-- The graph `markov_graph_init` builds from `exSpec` (checked by kernel
computation in the theorems below): labels 256, 1024, 1470; row bounds
(0.1, 0.8, 1.0), (0.3, 0.7, 1.0), (0.4, 0.8, 1.0). -/
def exGraph : MarkovGraph :=
  ⟨3,
   [[⟨256, 256, mkRat 1 10, mkRat 1 10⟩, ⟨1024, 0, mkRat 7 10, mkRat 4 5⟩,
     ⟨1470, 0, mkRat 1 5, mkRat 1 1⟩],
    [⟨256, 1024, mkRat 3 10, mkRat 3 10⟩, ⟨1024, 0, mkRat 2 5, mkRat 7 10⟩,
     ⟨1470, 0, mkRat 3 10, mkRat 1 1⟩],
    [⟨256, 1470, mkRat 2 5, mkRat 2 5⟩, ⟨1024, 0, mkRat 2 5, mkRat 4 5⟩,
     ⟨1470, 0, mkRat 1 5, mkRat 1 1⟩]],
   0, 0, 0⟩

/-- C2 counterexample: on the example specification with `current_state = 0`,
the draw `r = 0.1` — which the claim places in the interval `0.1 ≤ r < 0.8`
choosing column 1 (label 1024) — actually selects column 0 and returns label
256: the forward scan `prob_bound < pull_rand` stops at the first bound `≥ r`,
so a draw exactly equal to a bound goes to the earlier column. -/
theorem markov_example_boundary_counterexample :
    markov_graph_init defaultEntry exSpec = some exGraph ∧
    (mkRat 1 10 : ℚ) = 1 / 10 ∧
    markov_graph_next exGraph (mkRat 1 10) = some (256, { exGraph with cur_row := 0 }) ∧
    (256 : ℤ) ≠ 1024 := by
  refine ⟨by decide, by rw [Rat.mkRat_eq_div]; norm_num, by decide, by decide⟩

/-- C2 (amended): on the example specification built with
`current_state = 0`, the first `markov_graph_next` call selects column 0
(label 256) for every draw `r ≤ 0.1`, column 1 (label 1024) for
`0.1 < r ≤ 0.8`, and column 2 (label 1470) for `0.8 < r ≤ 1.0`: the
boundaries are attached to the left interval because the forward scan stops
at the first `prob_bound ≥ r`. -/
theorem markov_example_first_next_amended :
    markov_graph_init defaultEntry exSpec = some exGraph ∧
    ∀ r : ℚ, 0 ≤ r → r ≤ 1 →
      ((r ≤ 1 / 10 → markov_graph_next exGraph r = some (256, { exGraph with cur_row := 0 })) ∧
       (1 / 10 < r → r ≤ 4 / 5 →
          markov_graph_next exGraph r = some (1024, { exGraph with cur_row := 1 })) ∧
       (4 / 5 < r → markov_graph_next exGraph r = some (1470, { exGraph with cur_row := 2 }))) := by
  have e110 : (mkRat 1 10 : ℚ) = 1 / 10 := by rw [Rat.mkRat_eq_div]; norm_num
  have e45 : (mkRat 4 5 : ℚ) = 4 / 5 := by rw [Rat.mkRat_eq_div]; norm_num
  have e11 : (mkRat 1 1 : ℚ) = 1 := by rw [Rat.mkRat_eq_div]; norm_num
  have hz0 : FloatEqualZero (mkRat 1 10 : ℚ) = false := by decide
  have hz1 : FloatEqualZero (mkRat 7 10 : ℚ) = false := by decide
  have hz2 : FloatEqualZero (mkRat 1 5 : ℚ) = false := by decide
  refine ⟨by decide, ?_⟩
  intro r hr0 hr1
  refine ⟨?_, ?_, ?_⟩
  · intro h1
    have hb0 : qlt (mkRat 1 10) r = false := by rw [qlt_eq_false_iff, e110]; exact h1
    simp [markov_graph_next, exGraph, scanCells, backWalk, hb0, hz0]
  · intro h1 h2
    have hb0 : qlt (mkRat 1 10) r = true := by rw [qlt_iff, e110]; exact h1
    have hb1 : qlt (mkRat 4 5) r = false := by rw [qlt_eq_false_iff, e45]; exact h2
    simp [markov_graph_next, exGraph, scanCells, backWalk, hb0, hb1, hz1]
  · intro h1
    have hb0 : qlt (mkRat 1 10) r = true := by
      rw [qlt_iff, e110]; linarith
    have hb1 : qlt (mkRat 4 5) r = true := by rw [qlt_iff, e45]; exact h1
    have hb2 : qlt (mkRat 1 1) r = false := by rw [qlt_eq_false_iff, e11]; exact hr1
    simp [markov_graph_next, exGraph, scanCells, backWalk, hb0, hb1, hb2, hz2]

/-- Witness for C2 (amended) at the draw `r = 1/2`, which selects column 1
and returns label 1024. -/
theorem markov_example_first_next_witness :
    markov_graph_next exGraph (mkRat 1 2) = some (1024, { exGraph with cur_row := 1 }) := by
  have e12 : (mkRat 1 2 : ℚ) = 1 / 2 := by rw [Rat.mkRat_eq_div]; norm_num
  exact (markov_example_first_next_amended.2 (mkRat 1 2) (by rw [e12]; norm_num)
    (by rw [e12]; norm_num)).2.1 (by rw [e12]; norm_num) (by rw [e12]; norm_num)

/-! ## C8: determinism of sampling in the seed -/

/-- The sampling trace depends only on the matrix (`count`, `entrys`) and
the cursor (`cur_row`): two graphs agreeing on those produce identical
traces on the same draw list, whatever their `seed` and `cur_col` fields
hold. -/
theorem markov_trace_congr : ∀ (ds : List ℚ) (gA gB : MarkovGraph),
    gA.count = gB.count → gA.entrys = gB.entrys → gA.cur_row = gB.cur_row →
    markov_trace gA ds = markov_trace gB ds := by
  intro ds
  induction ds with
  | nil => intro gA gB _ _ _; rfl
  | cons r rs ih =>
    intro gA gB hc he hr
    show markov_trace gA (r :: rs) = markov_trace gB (r :: rs)
    unfold markov_trace markov_graph_next
    rw [hc, he, hr]
    cases hbw : backWalk (gB.entrys.getD gB.cur_row [])
        (scanCells r ((gB.entrys.getD gB.cur_row []).take gB.count) 0) with
    | none => rfl
    | some ix =>
      simp only [Option.map]
      congr 1
      exact ih
        { count := gB.count, entrys := gB.entrys, cur_row := ix, cur_col := gA.cur_col,
          seed := gA.seed }
        { count := gB.count, entrys := gB.entrys, cur_row := ix, cur_col := gB.cur_col,
          seed := gB.seed } rfl rfl rfl

/-- C8: sampling is deterministic in the seed.  For two runs over the same
successfully built graph state (same matrix and same starting cursor — the
cursor is part of the shared graph), calling `markov_graph_set_seed` with
the same seed makes both runs draw the same `rand` sequence, and the
resulting sequences of states and labels from successive
`markov_graph_next` calls are identical. -/
theorem markov_sampling_deterministic :
    ∀ (gA gB : MarkovGraph) (seed : ℤ) (len : ℕ),
      gA.count = gB.count → gA.entrys = gB.entrys → gA.cur_row = gB.cur_row →
      markov_trace (markov_graph_set_seed gA seed) (randDraws seed.toNat len)
        = markov_trace (markov_graph_set_seed gB seed) (randDraws seed.toNat len) := by
  intro gA gB seed len hc he hr
  exact markov_trace_congr (randDraws seed.toNat len)
    (markov_graph_set_seed gA seed) (markov_graph_set_seed gB seed) hc he hr

/-- Witness for C8: two copies of the example graph differing in their
stored `seed` and `cur_col` fields, reseeded with the same seed 42, produce
the same 5-step trace. -/
theorem markov_sampling_deterministic_witness :
    markov_trace (markov_graph_set_seed exGraph 42) (randDraws (42 : ℤ).toNat 5)
      = markov_trace (markov_graph_set_seed { exGraph with seed := 99, cur_col := 7 } 42)
          (randDraws (42 : ℤ).toNat 5) :=
  markov_sampling_deterministic exGraph { exGraph with seed := 99, cur_col := 7 } 42 5
    rfl rfl rfl

/-! ## Row structure lemmas for the construction bridge -/

/-- The cumulative-bound recurrence actually enforced by the token loop:
each cell's `prob_bound` is the previous total, unchanged when the
probability is `≈ 0`, else increased by the probability. -/
def boundsChain : ℚ → List MarkovEntry → Prop
  | _, [] => True
  | prev, c :: t => (c.prob_bound = nextBound c.prob prev) ∧ boundsChain c.prob_bound t

theorem rowOf_length (junk : MarkovEntry) : ∀ (n : ℕ) (cells : List MarkovEntry),
    (rowOf junk n cells).length = n := by
  intro n
  induction n with
  | zero => intro cells; rfl
  | succ m ih =>
    intro cells
    cases cells with
    | nil => simpa [rowOf] using ih []
    | cons c cs => simpa [rowOf] using ih cs

theorem rowOf_eq_take (junk : MarkovEntry) : ∀ (n : ℕ) (cells : List MarkovEntry),
    n ≤ cells.length → rowOf junk n cells = cells.take n := by
  intro n
  induction n with
  | zero => intro cells _; rfl
  | succ m ih =>
    intro cells hn
    cases cells with
    | nil => simp at hn
    | cons c cs =>
      show c :: rowOf junk m cs = c :: cs.take m
      rw [ih cs (by simpa using hn)]

theorem setRowLabel_length (lab : ℤ) (row : List MarkovEntry) :
    (setRowLabel lab row).length = row.length := by
  cases row <;> rfl

theorem setRowLabel_getD_prob (lab : ℤ) (row : List MarkovEntry) (i : ℕ) (d : MarkovEntry) :
    ((setRowLabel lab row).getD i d).prob = (row.getD i d).prob := by
  cases row with
  | nil => rfl
  | cons c t => cases i <;> rfl

theorem setRowLabel_getD_bound (lab : ℤ) (row : List MarkovEntry) (i : ℕ) (d : MarkovEntry) :
    ((setRowLabel lab row).getD i d).prob_bound = (row.getD i d).prob_bound := by
  cases row with
  | nil => rfl
  | cons c t => cases i <;> rfl

theorem setRowLabel_chain (lab : ℤ) (prev : ℚ) (row : List MarkovEntry) :
    boundsChain prev (setRowLabel lab row) ↔ boundsChain prev row := by
  cases row with
  | nil => exact Iff.rfl
  | cons c t => exact Iff.rfl

theorem setRowLabel_mem (lab : ℤ) (row : List MarkovEntry) (c : MarkovEntry) :
    c ∈ setRowLabel lab row →
    ∃ c2 ∈ row, c.prob = c2.prob ∧ c.prob_bound = c2.prob_bound := by
  cases row with
  | nil => intro h; simp [setRowLabel] at h
  | cons c0 t =>
    intro h
    rcases (by simpa [setRowLabel] using h :
        c = { c0 with value := lab, len := lab } ∨ c ∈ t) with h1 | h1
    · exact ⟨c0, by simp, by rw [h1], by rw [h1]⟩
    · exact ⟨c, by simp [h1], rfl, rfl⟩

theorem setValues_length : ∀ (ls : List ℤ) (row : List MarkovEntry),
    row.length ≤ ls.length → (setValues ls row).length = row.length := by
  intro ls
  induction ls with
  | nil =>
    intro row h
    cases row with
    | nil => rfl
    | cons c t => simp at h
  | cons l ls ih =>
    intro row h
    cases row with
    | nil => rfl
    | cons c t => simpa [setValues] using ih t (by simpa using h)

theorem setValues_getD_prob : ∀ (ls : List ℤ) (row : List MarkovEntry) (i : ℕ) (d : MarkovEntry),
    i < row.length → row.length ≤ ls.length →
    ((setValues ls row).getD i d).prob = (row.getD i d).prob := by
  intro ls
  induction ls with
  | nil =>
    intro row i d hi h
    cases row with
    | nil => simp at hi
    | cons c t => simp at h
  | cons l ls ih =>
    intro row i d hi h
    cases row with
    | nil => simp at hi
    | cons c t =>
      cases i with
      | zero => rfl
      | succ j => exact ih t j d (by simpa using hi) (by simpa using h)

theorem setValues_getD_bound : ∀ (ls : List ℤ) (row : List MarkovEntry) (i : ℕ) (d : MarkovEntry),
    i < row.length → row.length ≤ ls.length →
    ((setValues ls row).getD i d).prob_bound = (row.getD i d).prob_bound := by
  intro ls
  induction ls with
  | nil =>
    intro row i d hi h
    cases row with
    | nil => simp at hi
    | cons c t => simp at h
  | cons l ls ih =>
    intro row i d hi h
    cases row with
    | nil => simp at hi
    | cons c t =>
      cases i with
      | zero => rfl
      | succ j => exact ih t j d (by simpa using hi) (by simpa using h)

theorem setValues_chain : ∀ (ls : List ℤ) (row : List MarkovEntry) (prev : ℚ),
    row.length ≤ ls.length → (boundsChain prev (setValues ls row) ↔ boundsChain prev row) := by
  intro ls
  induction ls with
  | nil =>
    intro row prev h
    cases row with
    | nil => exact Iff.rfl
    | cons c t => simp at h
  | cons l ls ih =>
    intro row prev h
    cases row with
    | nil => exact Iff.rfl
    | cons c t =>
      show boundsChain prev ({ c with value := l } :: setValues ls t) ↔ _
      unfold boundsChain
      rw [ih t c.prob_bound (by simpa using h)]

theorem setValues_mem : ∀ (ls : List ℤ) (row : List MarkovEntry) (c : MarkovEntry),
    c ∈ setValues ls row →
    ∃ c2 ∈ row, c.prob = c2.prob ∧ c.prob_bound = c2.prob_bound := by
  intro ls
  induction ls with
  | nil =>
    intro row c h
    cases row with
    | nil => simp [setValues] at h
    | cons c0 t => simp [setValues] at h
  | cons l ls ih =>
    intro row c h
    cases row with
    | nil => simp [setValues] at h
    | cons c0 t =>
      rcases (by simpa [setValues] using h : c = { c0 with value := l } ∨ c ∈ setValues ls t)
          with h1 | h1
      · exact ⟨c0, by simp, by rw [h1], by rw [h1]⟩
      · obtain ⟨c2, hm, h2, h3⟩ := ih t c h1
        exact ⟨c2, by simp [hm], h2, h3⟩

theorem boundsChain_take : ∀ (cells : List MarkovEntry) (prev : ℚ) (n : ℕ),
    boundsChain prev cells → boundsChain prev (cells.take n) := by
  intro cells
  induction cells with
  | nil => intro prev n _; simpa using trivial
  | cons c t ih =>
    intro prev n h
    cases n with
    | zero => exact trivial
    | succ m => exact ⟨h.1, ih c.prob_bound m h.2⟩

theorem floatLessThanZero_eq_false_iff (v : ℚ) : FloatLessThanZero v = false ↔ 0 ≤ v := by
  rw [Bool.eq_false_iff, Ne, floatLessThanZero_iff, not_lt]

theorem floatGreaterThanOne_eq_false_iff (v : ℚ) :
    FloatGreaterThanOne v = false ↔ v - 1 ≤ 1 / 100000 := by
  rw [Bool.eq_false_iff, Ne, floatGreaterThanOne_iff, not_lt]

theorem floatLessThanOne_eq_false_iff (v : ℚ) :
    FloatLessThanOne v = false ↔ 1 - v ≤ 1 / 100000 := by
  rw [Bool.eq_false_iff, Ne, floatLessThanOne_iff, not_lt]

theorem mkRat_zero_one : (mkRat 0 1 : ℚ) = 0 := by
  rw [Rat.mkRat_eq_div]
  norm_num

theorem nextBound_eq (p prev : ℚ) :
    nextBound p prev = if FloatEqualZero p then prev else p + prev := by
  unfold nextBound
  by_cases hz : FloatEqualZero p = true
  · rw [hz]; simp
  · rw [Bool.eq_false_iff.mpr hz]; simp [qadd_eq]

theorem nextBound_ge (p prev : ℚ) (hp : 0 ≤ p) : prev ≤ nextBound p prev := by
  rw [nextBound_eq]
  by_cases hz : FloatEqualZero p = true
  · rw [if_pos hz]
  · rw [if_neg hz]; linarith

/-- Facts about a successfully parsed probability token list: one cell per
token, the cumulative-bound recurrence from `prevtot`, and each cell's
probability in `[0, 1 + 1e-5]` with its bound at most `1 + 1e-5`. -/
theorem parseProbCells_facts (junk : MarkovEntry) :
    ∀ (toks : List (List Char)) (prev : ℚ) (cells : List MarkovEntry),
      parseProbCells junk toks prev = some cells →
      cells.length = toks.length ∧ boundsChain prev cells ∧
      ∀ c ∈ cells, 0 ≤ c.prob ∧ c.prob - 1 ≤ 1 / 100000 ∧ c.prob_bound - 1 ≤ 1 / 100000 := by
  intro toks
  induction toks with
  | nil =>
    intro prev cells h
    obtain rfl : cells = [] := by simpa [parseProbCells] using h.symm
    exact ⟨rfl, trivial, by simp⟩
  | cons t ts ih =>
    intro prev cells h
    unfold parseProbCells at h
    cases hs : strtofQ t with
    | none =>
      rw [hs] at h
      simp at h
    | some p =>
      rw [hs] at h
      dsimp only [] at h
      by_cases hr : (FloatLessThanZero p || FloatGreaterThanOne p) = true
      · rw [if_pos hr] at h; simp at h
      · rw [if_neg hr] at h
        have hor : FloatLessThanZero p = false ∧ FloatGreaterThanOne p = false := by
          cases h1 : FloatLessThanZero p <;> cases h2 : FloatGreaterThanOne p <;>
            rw [h1, h2] at hr <;> simp_all
        by_cases hb : FloatGreaterThanOne (nextBound p prev) = true
        · rw [if_pos hb] at h; simp at h
        · rw [if_neg hb] at h
          cases hrec : parseProbCells junk ts (nextBound p prev) with
          | none => rw [hrec] at h; simp at h
          | some cs =>
            rw [hrec] at h
            obtain rfl : { junk with prob := p, prob_bound := nextBound p prev } :: cs
                = cells := by simpa using h
            obtain ⟨hlen, hchain, hmem⟩ := ih _ cs hrec
            have hple : 0 ≤ p := (floatLessThanZero_eq_false_iff p).mp hor.1
            have hpge : p - 1 ≤ 1 / 100000 := (floatGreaterThanOne_eq_false_iff p).mp hor.2
            have hble : nextBound p prev - 1 ≤ 1 / 100000 :=
              (floatGreaterThanOne_eq_false_iff _).mp (Bool.eq_false_iff.mpr hb)
            refine ⟨by simpa using hlen, ⟨rfl, by simpa using hchain⟩, ?_⟩
            intro c hc
            rcases (by simpa using hc :
                c = { junk with prob := p, prob_bound := nextBound p prev } ∨ c ∈ cs)
                with h1 | h1
            · subst h1
              exact ⟨hple, hpge, hble⟩
            · exact hmem c h1

/-- Under the bound recurrence with nonnegative probabilities, every bound
dominates the starting total. -/
theorem boundsChain_prev_le :
    ∀ (cells : List MarkovEntry) (prev : ℚ) (d : MarkovEntry) (i : ℕ),
      boundsChain prev cells → (∀ c ∈ cells, 0 ≤ c.prob) → i < cells.length →
      prev ≤ (cells.getD i d).prob_bound := by
  intro cells
  induction cells with
  | nil => intro prev d i _ _ hi; simp at hi
  | cons c t ih =>
    intro prev d i hch hpos hi
    have hc0 : prev ≤ c.prob_bound := by
      rw [hch.1]
      exact nextBound_ge c.prob prev (hpos c (by simp))
    cases i with
    | zero => simpa using hc0
    | succ j =>
      have := ih c.prob_bound d j hch.2 (fun x hx => hpos x (by simp [hx]))
        (by simpa using hi)
      calc prev ≤ c.prob_bound := hc0
        _ ≤ _ := this

/-- Bound monotonicity along a row. -/
theorem boundsChain_mono :
    ∀ (cells : List MarkovEntry) (prev : ℚ) (d : MarkovEntry) (i j : ℕ),
      boundsChain prev cells → (∀ c ∈ cells, 0 ≤ c.prob) → i ≤ j → j < cells.length →
      (cells.getD i d).prob_bound ≤ (cells.getD j d).prob_bound := by
  intro cells
  induction cells with
  | nil => intro prev d i j _ _ _ hj; simp at hj
  | cons c t ih =>
    intro prev d i j hch hpos hij hj
    cases i with
    | zero =>
      cases j with
      | zero => exact le_refl _
      | succ j2 =>
        show c.prob_bound ≤ (t.getD j2 d).prob_bound
        exact boundsChain_prev_le t c.prob_bound d j2 hch.2
          (fun x hx => hpos x (by simp [hx])) (by simpa using hj)
    | succ i2 =>
      cases j with
      | zero => omega
      | succ j2 =>
        exact ih c.prob_bound d i2 j2 hch.2 (fun x hx => hpos x (by simp [hx]))
          (by omega) (by simpa using hj)

/-- If some bound strictly exceeds the starting total, some column at or
before it carries a probability that is not `≈ 0`. -/
theorem boundsChain_pos_exists :
    ∀ (cells : List MarkovEntry) (prev : ℚ) (d : MarkovEntry) (k : ℕ),
      boundsChain prev cells → k < cells.length →
      prev < (cells.getD k d).prob_bound →
      ∃ j, j ≤ k ∧ FloatEqualZero ((cells.getD j d).prob) = false := by
  intro cells
  induction cells with
  | nil => intro prev d k _ hk; simp at hk
  | cons c t ih =>
    intro prev d k hch hk hlt
    by_cases hz : FloatEqualZero c.prob = true
    · have hc0 : c.prob_bound = prev := by
        rw [hch.1, nextBound_eq, if_pos hz]
      cases k with
      | zero =>
        exfalso
        rw [(by simpa using hc0 : ((c :: t).getD 0 d).prob_bound = prev)] at hlt
        exact lt_irrefl prev hlt
      | succ k2 =>
        obtain ⟨j, hjk, hjz⟩ := ih c.prob_bound d k2 hch.2 (by simpa using hk)
          (by rw [hc0]; simpa using hlt)
        exact ⟨j + 1, by omega, by simpa using hjz⟩
    · exact ⟨0, Nat.zero_le k, by simpa using Bool.eq_false_iff.mpr hz⟩

theorem getD_take :
    ∀ (l : List MarkovEntry) (n i : ℕ) (d : MarkovEntry),
      i < n → (l.take n).getD i d = l.getD i d := by
  intro l
  induction l with
  | nil => intro n i d _; simp
  | cons c t ih =>
    intro n i d hi
    cases n with
    | zero => omega
    | succ m =>
      cases i with
      | zero => rfl
      | succ j => simpa using ih m j d (by omega)

/-- The validated-row invariant: exactly `count` cells, the cumulative-bound
recurrence from 0, probabilities in `[0, 1 + 1e-5]`, every bound at most
`1 + 1e-5`, and the last column's bound at least `1 - 1e-5`. -/
def RowGood (count : ℕ) (row : List MarkovEntry) : Prop :=
  row.length = count ∧ boundsChain 0 row ∧
  (∀ c ∈ row, 0 ≤ c.prob ∧ c.prob - 1 ≤ 1 / 100000 ∧ c.prob_bound - 1 ≤ 1 / 100000) ∧
  1 - (row.getD (count - 1) defaultEntry).prob_bound ≤ 1 / 100000

/-- A successfully built row whose segment supplies at least `count`
probability tokens satisfies the validated-row invariant. -/
theorem buildRow_facts (junk : MarkovEntry) (count : ℕ) (seg : List Char)
    (row : List MarkovEntry) (hcomp : count ≤ (toksOfSeg seg).length) :
    buildRow junk count seg = some row → RowGood count row := by
  intro h
  unfold buildRow at h
  cases hsp : splitAtFirst '|' seg with
  | none => rw [hsp] at h; simp at h
  | some pr =>
    rw [hsp] at h
    dsimp only [] at h
    have htoks : toksOfSeg seg = tokenize ',' pr.2 := by
      unfold toksOfSeg
      rw [hsp]
    cases hpc : parseProbCells junk (tokenize ',' pr.2) (mkRat 0 1) with
    | none => rw [hpc] at h; simp at h
    | some cells =>
      rw [hpc] at h
      dsimp only [] at h
      by_cases hfin : FloatLessThanOne
          (((setRowLabel (atoiZ pr.1) (rowOf junk count cells)).getD (count - 1)
            defaultEntry).prob_bound) = true
      · rw [if_pos hfin] at h; simp at h
      · rw [if_neg hfin] at h
        obtain rfl : setRowLabel (atoiZ pr.1) (rowOf junk count cells) = row := by
          simpa using h
        obtain ⟨hlen, hchain, hmem⟩ := parseProbCells_facts junk _ _ cells hpc
        have hcells : count ≤ cells.length := by
          rw [hlen, ← htoks]; exact hcomp
        have hrow : rowOf junk count cells = cells.take count := rowOf_eq_take junk count cells hcells
        have hchain0 : boundsChain 0 cells := by
          rw [← mkRat_zero_one]; exact hchain
        refine ⟨?_, ?_, ?_, ?_⟩
        · rw [setRowLabel_length, hrow, List.length_take]
          omega
        · rw [setRowLabel_chain, hrow]
          exact boundsChain_take cells 0 count hchain0
        · intro c hc
          obtain ⟨c2, hc2, hp, hb⟩ := setRowLabel_mem _ _ c hc
          rw [hrow] at hc2
          have hc2m : c2 ∈ cells := List.take_subset count cells hc2
          rw [hp, hb]
          exact hmem c2 hc2m
        · exact (floatLessThanOne_eq_false_iff _).mp (Bool.eq_false_iff.mpr hfin)

/-- All rows of a successful `buildRows` run are validated, and there is one
row per segment. -/
theorem buildRows_facts (junk : MarkovEntry) (count : ℕ) :
    ∀ (segs : List (List Char)) (rows : List (List MarkovEntry)),
      (∀ seg ∈ segs, count ≤ (toksOfSeg seg).length) →
      buildRows junk count segs = some rows →
      rows.length = segs.length ∧ ∀ row ∈ rows, RowGood count row := by
  intro segs
  induction segs with
  | nil =>
    intro rows _ h
    obtain rfl : rows = [] := by simpa [buildRows] using h.symm
    exact ⟨rfl, by simp⟩
  | cons seg rest ih =>
    intro rows hcomp h
    unfold buildRows at h
    cases hbr : buildRow junk count seg with
    | none => rw [hbr] at h; simp at h
    | some row =>
      rw [hbr] at h
      cases hrec : buildRows junk count rest with
      | none => rw [hrec] at h; simp at h
      | some rs =>
        rw [hrec] at h
        obtain rfl : row :: rs = rows := by simpa using h
        obtain ⟨hlen, hgood⟩ := ih rs (fun s hs => hcomp s (by simp [hs])) hrec
        refine ⟨by simpa using hlen, ?_⟩
        intro r hr
        rcases (by simpa using hr : r = row ∨ r ∈ rs) with h1 | h1
        · subst h1
          exact buildRow_facts junk count seg r (hcomp seg (by simp)) hbr
        · exact hgood r h1

/-- The fill pass (which only writes the `value` field) preserves the
validated-row invariant. -/
theorem RowGood_setValues (count : ℕ) (ls : List ℤ) (row : List MarkovEntry)
    (hls : row.length ≤ ls.length) (hg : RowGood count row) :
    RowGood count (setValues ls row) := by
  obtain ⟨hlen, hchain, hmem, hfin⟩ := hg
  refine ⟨by rw [setValues_length ls row hls, hlen], ?_, ?_, ?_⟩
  · rw [setValues_chain ls row 0 hls]
    exact hchain
  · intro c hc
    obtain ⟨c2, hc2, hp, hb⟩ := setValues_mem ls row c hc
    rw [hp, hb]
    exact hmem c2 hc2
  · cases count with
    | zero =>
      cases hrow : row with
      | nil => simpa [hrow, setValues] using hfin
      | cons c t => rw [hrow] at hlen; simp at hlen
    | succ m =>
      simp only [Nat.add_sub_cancel] at hfin ⊢
      rw [setValues_getD_bound ls row m defaultEntry (by omega) hls]
      exact hfin

/-- The bridge: every graph `markov_graph_init` builds from a well-formed,
complete specification has one validated row per `'<'` segment (or is the
zero-state graph when there is no segment at all). -/
theorem init_rows_good (junk : MarkovEntry) (s : String) (g : MarkovGraph)
    (hcomp : specComplete s = true) (h : markov_graph_init junk s = some g) :
    g.count = (segsOf s).length ∧ g.cur_row = 0 ∧ g.entrys.length = g.count ∧
    ((segsOf s).length = 0 → g = ⟨0, [], 0, 0, 0⟩) ∧
    (∀ row ∈ g.entrys, RowGood g.count row) := by
  have hcomp2 : ∀ seg ∈ segsOf s, (segsOf s).length ≤ (toksOfSeg seg).length := by
    intro seg hseg
    have hall := (List.all_eq_true.mp hcomp) seg hseg
    cases hsp : splitAtFirst '|' seg with
    | none => rw [hsp] at hall; simp at hall
    | some pr =>
      rw [hsp] at hall
      unfold toksOfSeg
      rw [hsp]
      simpa using hall
  unfold markov_graph_init at h
  by_cases h0 : (tokenize '<' (deblank s.data)).length = 0
  · rw [if_pos h0] at h
    obtain rfl : (⟨0, [], 0, 0, 0⟩ : MarkovGraph) = g := by simpa using h
    exact ⟨by simpa [segsOf] using h0.symm, rfl, rfl, fun _ => rfl, by simp⟩
  · rw [if_neg h0] at h
    cases hbr : buildRows junk (tokenize '<' (deblank s.data)).length
        (tokenize '<' (deblank s.data)) with
    | none => rw [hbr] at h; simp at h
    | some rows =>
      rw [hbr] at h
      obtain rfl : (⟨(tokenize '<' (deblank s.data)).length, fillValues rows, 0, 0, 0⟩ :
          MarkovGraph) = g := by simpa using h
      obtain ⟨hlen, hgood⟩ := buildRows_facts junk _ _ rows (by simpa [segsOf] using hcomp2) hbr
      refine ⟨rfl, rfl, ?_, fun hc => absurd hc h0, ?_⟩
      · show (fillValues rows).length = _
        simp [fillValues, hlen, segsOf]
      · intro row hrow
        rcases (by simpa [fillValues] using hrow :
            ∃ r ∈ rows, setValues (colLabels rows) r = row) with ⟨r, hr, hset⟩
        rw [← hset]
        refine RowGood_setValues _ (colLabels rows) r ?_ (hgood r hr)
        have : (colLabels rows).length = rows.length := by simp [colLabels]
        rw [this, hlen]
        exact le_of_eq (hgood r hr).1

/-! ## C3: invariants of successfully built graphs -/

/-- C3 (amended): in every graph built by `markov_graph_init` from a
well-formed specification whose rows all supply at least `n` probabilities,
every row's `prob_bound` sequence is monotonically non-decreasing, every
probability lies in `[0, 1 + 1e-5]` — the code accepts probabilities
exceeding 1 by up to the tolerance, so the claimed `[0, 1]` is too tight —
and the last column's cumulative bound equals 1 within tolerance 1e-5.  For
a row supplying fewer than `n` probabilities the unchecked cells hold
uninitialized memory and no invariant can be guaranteed (see the
counterexample). -/
theorem markov_graph_invariants_amended :
    ∀ (junk : MarkovEntry) (s : String) (g : MarkovGraph),
      specWF s = true → specComplete s = true → markov_graph_init junk s = some g →
      ∀ row ∈ g.entrys,
        (∀ i j, i ≤ j → j < row.length →
          (row.getD i defaultEntry).prob_bound ≤ (row.getD j defaultEntry).prob_bound) ∧
        (∀ c ∈ row, 0 ≤ c.prob ∧ c.prob ≤ 1 + 1 / 100000) ∧
        |(row.getD (g.count - 1) defaultEntry).prob_bound - 1| ≤ 1 / 100000 := by
  intro junk s g _ hcomp h row hrow
  obtain ⟨hcnt, _, _, hzero, hgood⟩ := init_rows_good junk s g hcomp h
  obtain ⟨hlen, hchain, hmem, hfin⟩ := hgood row hrow
  have hpos : ∀ c ∈ row, 0 ≤ c.prob := fun c hc => (hmem c hc).1
  refine ⟨?_, ?_, ?_⟩
  · intro i j hij hj
    exact boundsChain_mono row 0 defaultEntry i j hchain hpos hij hj
  · intro c hc
    obtain ⟨h1, h2, _⟩ := hmem c hc
    exact ⟨h1, by linarith⟩
  · have hlt : g.count - 1 < row.length := by
      rw [hlen]
      rcases Nat.eq_zero_or_pos g.count with h0 | h0
      · exfalso
        have hz := hzero (by omega)
        rw [hz] at hrow
        simp at hrow
      · omega
    have hcell : row.getD (g.count - 1) defaultEntry ∈ row := by
      rw [List.getD_eq_getElem row defaultEntry hlt]
      exact List.getElem_mem hlt
    obtain ⟨_, _, hub⟩ := hmem _ hcell
    rw [abs_le]
    constructor
    · linarith
    · linarith

def tolSpec : String := "<1|1.000005"

def tolGraph : MarkovGraph :=
  ⟨1, [[⟨1, 1, mkRat 200001 200000, mkRat 200001 200000⟩]], 0, 0, 0⟩

/-- Uninitialized row memory as it may happen to be: an arbitrary bit
pattern read back as probability 7 and bound `0.999999`. -/
def junkBad : MarkovEntry := ⟨0, 0, mkRat 7 1, mkRat 999999 1000000⟩

def shortSpec : String := "<1|1<2|0.5,0.5"

def shortGraphBad : MarkovGraph :=
  ⟨2, [[⟨1, 1, mkRat 1 1, mkRat 1 1⟩, ⟨2, 0, mkRat 7 1, mkRat 999999 1000000⟩],
       [⟨1, 2, mkRat 1 2, mkRat 1 2⟩, ⟨2, 0, mkRat 1 2, mkRat 1 1⟩]], 0, 0, 0⟩

/-- C3 counterexample: (i) the specification `<1|1.000005` is accepted —
`FloatGreaterThanOne` tolerates an excess below `1e-5` — and the built
graph carries the probability `1.000005 ∉ [0,1]`; (ii) the short row of
`<1|1<2|0.5,0.5` (1 token, `n = 2`) makes `markov_graph_init` read the
uninitialized cell `tmp[0][1]`: with junk bound `0.999999` the graph is
accepted and its first row's bound sequence (1, 0.999999) is *decreasing*
with a junk probability 7, while with zeroed junk the same string is
rejected. -/
theorem markov_graph_invariants_counterexample :
    markov_graph_init defaultEntry tolSpec = some tolGraph ∧
    1 < ((tolGraph.entrys.getD 0 []).getD 0 defaultEntry).prob ∧
    markov_graph_init junkBad shortSpec = some shortGraphBad ∧
    ((shortGraphBad.entrys.getD 0 []).getD 1 defaultEntry).prob_bound
      < ((shortGraphBad.entrys.getD 0 []).getD 0 defaultEntry).prob_bound ∧
    markov_graph_init defaultEntry shortSpec = none := by
  refine ⟨by decide, ?_, by decide, ?_, by decide⟩
  · show (1 : ℚ) < mkRat 200001 200000
    rw [Rat.mkRat_eq_div]
    norm_num
  · show (mkRat 999999 1000000 : ℚ) < mkRat 1 1
    rw [Rat.mkRat_eq_div, Rat.mkRat_eq_div]
    norm_num

/-- Witness for C3 (amended) on the first row of the example graph. -/
theorem markov_graph_invariants_witness :
    (∀ i j, i ≤ j → j < (exGraph.entrys.getD 0 []).length →
      ((exGraph.entrys.getD 0 []).getD i defaultEntry).prob_bound
        ≤ ((exGraph.entrys.getD 0 []).getD j defaultEntry).prob_bound) ∧
    (∀ c ∈ exGraph.entrys.getD 0 [], 0 ≤ c.prob ∧ c.prob ≤ 1 + 1 / 100000) ∧
    |((exGraph.entrys.getD 0 []).getD (exGraph.count - 1) defaultEntry).prob_bound - 1|
      ≤ 1 / 100000 :=
  markov_graph_invariants_amended defaultEntry exSpec exGraph (by decide) (by decide)
    (by decide) (exGraph.entrys.getD 0 []) (by decide)

/-! ## C5: atomic construction, squareness and `n ≥ 1` -/

/-- C5 (amended): for a well-formed, complete specification,
`markov_graph_init` either returns the zero-state graph — which happens
exactly when the input contains no `'<'`-introduced declaration, refuting
the claimed `n ≥ 1` for every non-NULL result — or a fully validated square
`n × n` matrix with `n ≥ 1`; construction is atomic (every failing row
discards the graph and yields NULL, so no partially filled matrix is
returned). -/
theorem markov_init_square_amended :
    ∀ (junk : MarkovEntry) (s : String) (g : MarkovGraph),
      specWF s = true → specComplete s = true → markov_graph_init junk s = some g →
      (segsOf s = [] ∧ g = ⟨0, [], 0, 0, 0⟩) ∨
      (1 ≤ g.count ∧ g.count = (segsOf s).length ∧ g.entrys.length = g.count ∧
       ∀ row ∈ g.entrys, row.length = g.count ∧ RowGood g.count row) := by
  intro junk s g _ hcomp h
  obtain ⟨hcnt, _, hlen, hzero, hgood⟩ := init_rows_good junk s g hcomp h
  rcases Nat.eq_zero_or_pos (segsOf s).length with h0 | h0
  · left
    exact ⟨List.length_eq_zero.mp h0, hzero h0⟩
  · right
    exact ⟨by omega, hcnt, hlen, fun row hrow => ⟨(hgood row hrow).1, hgood row hrow⟩⟩

/-- C5 counterexample: the input `"<"` contains a `'<'` but no declaration;
`markov_graph_init` still returns a non-NULL graph — the `calloc`-ed struct
with zero states and no matrix — so a successful return is not always a
validated `n × n` matrix with `n ≥ 1`. -/
theorem markov_init_zero_state_counterexample :
    markov_graph_init defaultEntry "<" = some ⟨0, [], 0, 0, 0⟩ ∧
    ¬ (1 ≤ (⟨0, [], 0, 0, 0⟩ : MarkovGraph).count) := by
  exact ⟨by decide, by decide⟩

/-- Witness for C5 (amended) on the example specification: three
declarations, a validated square 3 × 3 matrix. -/
theorem markov_init_square_witness :
    (segsOf exSpec = [] ∧ exGraph = ⟨0, [], 0, 0, 0⟩) ∨
    (1 ≤ exGraph.count ∧ exGraph.count = (segsOf exSpec).length ∧
     exGraph.entrys.length = exGraph.count ∧
     ∀ row ∈ exGraph.entrys, row.length = exGraph.count ∧ RowGood exGraph.count row) :=
  markov_init_square_amended defaultEntry exSpec exGraph (by decide) (by decide) (by decide)

/-! ## C1: the tie-break walk never selects a zero-probability column -/

theorem scanCells_ge : ∀ (cells : List MarkovEntry) (r : ℚ) (ix : ℕ),
    ix ≤ scanCells r cells ix := by
  intro cells
  induction cells with
  | nil => intro r ix; exact le_refl ix
  | cons c rest ih =>
    intro r ix
    show ix ≤ (if qlt c.prob_bound r then scanCells r rest (ix + 1) else ix + 1)
    by_cases hq : qlt c.prob_bound r = true
    · rw [if_pos hq]
      exact le_trans (by omega) (ih r (ix + 1))
    · rw [if_neg hq]
      omega

/-- The forward scan stops either past the whole row (every bound below the
draw) or one past the first column whose bound reaches the draw. -/
theorem scanCells_spec : ∀ (cells : List MarkovEntry) (r : ℚ) (ix : ℕ),
    (scanCells r cells ix = ix + cells.length ∧
      ∀ j, j < cells.length → qlt ((cells.getD j defaultEntry).prob_bound) r = true) ∨
    (∃ m, m < cells.length ∧ scanCells r cells ix = ix + m + 1 ∧
      qlt ((cells.getD m defaultEntry).prob_bound) r = false ∧
      ∀ j, j < m → qlt ((cells.getD j defaultEntry).prob_bound) r = true) := by
  intro cells
  induction cells with
  | nil =>
    intro r ix
    left
    exact ⟨rfl, by simp⟩
  | cons c rest ih =>
    intro r ix
    by_cases hq : qlt c.prob_bound r = true
    · have hstep : scanCells r (c :: rest) ix = scanCells r rest (ix + 1) := by
        show (if qlt c.prob_bound r then scanCells r rest (ix + 1) else ix + 1) = _
        rw [if_pos hq]
      rcases ih r (ix + 1) with ⟨hall, hj⟩ | ⟨m, hm, heq, hstop, hj⟩
      · left
        refine ⟨by rw [hstep, hall]; simp; omega, ?_⟩
        intro j hjl
        cases j with
        | zero => simpa using hq
        | succ j2 => simpa using hj j2 (by simpa using hjl)
      · right
        refine ⟨m + 1, by simpa using hm, by rw [hstep, heq]; omega, by simpa using hstop, ?_⟩
        intro j hjl
        cases j with
        | zero => simpa using hq
        | succ j2 => simpa using hj j2 (by omega)
    · have hq2 : qlt c.prob_bound r = false := Bool.eq_false_iff.mpr hq
      have hstep : scanCells r (c :: rest) ix = ix + 1 := by
        show (if qlt c.prob_bound r then scanCells r rest (ix + 1) else ix + 1) = _
        rw [if_neg hq]
      right
      exact ⟨0, by simp, by rw [hstep], by simpa using hq2, by omega⟩

/-- If some column strictly before the walk's starting point carries a
nonzero probability, the backward walk stays in bounds and lands on the
nearest such column. -/
theorem backWalk_found : ∀ (ix : ℕ) (row : List MarkovEntry),
    (∃ j, j < ix ∧ FloatEqualZero ((row.getD j defaultEntry).prob) = false) →
    ∃ j, backWalk row ix = some j ∧ j < ix ∧
      FloatEqualZero ((row.getD j defaultEntry).prob) = false ∧
      ∀ i, j < i → i < ix → FloatEqualZero ((row.getD i defaultEntry).prob) = true := by
  intro ix
  induction ix with
  | zero =>
    intro row h
    obtain ⟨j, hj, _⟩ := h
    omega
  | succ m ih =>
    intro row h
    by_cases hz : FloatEqualZero ((row.getD m defaultEntry).prob) = true
    · have hstep : backWalk row (m + 1) = backWalk row m := by
        show (if FloatEqualZero (row.getD m defaultEntry).prob then backWalk row m else some m) = _
        rw [if_pos hz]
      obtain ⟨j, hj, hjz⟩ := h
      have hjm : j < m := by
        rcases Nat.lt_succ_iff_lt_or_eq.mp hj with h1 | h1
        · exact h1
        · subst h1
          rw [hz] at hjz
          exact absurd hjz (by simp)
      obtain ⟨j2, hbw, hlt, hnz, hall⟩ := ih row ⟨j, hjm, hjz⟩
      refine ⟨j2, by rw [hstep, hbw], by omega, hnz, ?_⟩
      intro i hgt hlt2
      rcases Nat.lt_succ_iff_lt_or_eq.mp hlt2 with h1 | h1
      · exact hall i hgt h1
      · subst h1
        exact hz
    · have hz2 : FloatEqualZero ((row.getD m defaultEntry).prob) = false := Bool.eq_false_iff.mpr hz
      have hstep : backWalk row (m + 1) = some m := by
        show (if FloatEqualZero (row.getD m defaultEntry).prob then backWalk row m else some m) = _
        rw [if_neg hz]
      exact ⟨m, hstep, by omega, hz2, by omega⟩

/-- C1 (amended): for every graph built from a well-formed specification
whose rows each supply at least `n` probabilities, and every draw
`r ∈ [0,1]` such that `r > 0` — or `r = 0` while the current row's first
column has nonzero probability — `markov_graph_next` selects a column with
nonzero probability (within tolerance 1e-5), namely the nearest column at or
before the forward-scan stop whose probability is not `≈ 0`; every column
strictly between the chosen one and the scan stop has probability `≈ 0`.
Both qualifiers are necessary: at `r = 0` with a zero-probability first
column the backward walk runs past the start of the row, and a graph whose
short row was accepted through uninitialized memory can carry a row with no
positive probability at all, where the walk underflows even at `r > 0`
(see the counterexample for both). -/
theorem markov_next_tiebreak_amended :
    ∀ (junk : MarkovEntry) (s : String) (g : MarkovGraph),
      specWF s = true → specComplete s = true → markov_graph_init junk s = some g →
      ∀ rowIx, rowIx < g.count → ∀ r : ℚ, 0 ≤ r → r ≤ 1 →
      (0 < r ∨ FloatEqualZero ((g.entrys.getD rowIx []).getD 0 defaultEntry).prob = false) →
      ∃ j, markov_graph_next { g with cur_row := rowIx } r
            = some (((g.entrys.getD j []).getD 0 defaultEntry).len, { g with cur_row := j }) ∧
        FloatEqualZero ((g.entrys.getD rowIx []).getD j defaultEntry).prob = false ∧
        j < scanCells r ((g.entrys.getD rowIx []).take g.count) 0 ∧
        ∀ i, j < i → i < scanCells r ((g.entrys.getD rowIx []).take g.count) 0 →
          FloatEqualZero ((g.entrys.getD rowIx []).getD i defaultEntry).prob = true := by
  intro junk s g hwf hcomp h rowIx hrix r hr0 hr1 hcase
  obtain ⟨hcnt, _, hlen, hzero, hgood⟩ := init_rows_good junk s g hcomp h
  have hrixlen : rowIx < g.entrys.length := by omega
  have hrowmem : g.entrys.getD rowIx [] ∈ g.entrys := by
    rw [List.getD_eq_getElem g.entrys [] hrixlen]
    exact List.getElem_mem hrixlen
  obtain ⟨hrl, hchain, hmem, hfin⟩ := hgood _ hrowmem
  have htake : (g.entrys.getD rowIx []).take g.count = g.entrys.getD rowIx [] := by
    rw [← hrl]
    exact List.take_length (g.entrys.getD rowIx [])
  rw [htake]
  have hex : ∃ j, j < scanCells r (g.entrys.getD rowIx []) 0 ∧
      FloatEqualZero ((g.entrys.getD rowIx []).getD j defaultEntry).prob = false := by
    rcases scanCells_spec (g.entrys.getD rowIx []) r 0 with ⟨hall, hj⟩ | ⟨m, hm, heq, hstop, hj⟩
    · have hpos : (0 : ℚ)
          < ((g.entrys.getD rowIx []).getD (g.count - 1) defaultEntry).prob_bound := by
        linarith
      obtain ⟨j, hjle, hjz⟩ := boundsChain_pos_exists (g.entrys.getD rowIx []) 0 defaultEntry
        (g.count - 1) hchain (by omega) hpos
      refine ⟨j, ?_, hjz⟩
      rw [hall]
      simp only [Nat.zero_add]
      omega
    · rcases hcase with hcase | hcase
      · have hrle : r ≤ ((g.entrys.getD rowIx []).getD m defaultEntry).prob_bound :=
          (qlt_eq_false_iff _ _).mp hstop
        have hpos : (0 : ℚ) < ((g.entrys.getD rowIx []).getD m defaultEntry).prob_bound := by
          linarith
        obtain ⟨j, hjle, hjz⟩ := boundsChain_pos_exists (g.entrys.getD rowIx []) 0 defaultEntry
          m hchain hm hpos
        exact ⟨j, by omega, hjz⟩
      · refine ⟨0, ?_, hcase⟩
        rw [heq]
        omega
  obtain ⟨j, hbw, hjlt, hjz, hall⟩ := backWalk_found (scanCells r (g.entrys.getD rowIx []) 0)
    (g.entrys.getD rowIx []) ⟨hex.choose, hex.choose_spec⟩
  refine ⟨j, ?_, hjz, hjlt, hall⟩
  show (match backWalk (g.entrys.getD rowIx [])
      (scanCells r ((g.entrys.getD rowIx []).take g.count) 0) with
    | none => none
    | some ix => some (((g.entrys.getD ix []).getD 0 defaultEntry).len,
        { g with cur_row := ix })) = _
  rw [htake, hbw]

def zeroLeadSpec : String := "<5|0,1<7|1,0"

def zeroLeadGraph : MarkovGraph :=
  ⟨2, [[⟨5, 5, mkRat 0 1, mkRat 0 1⟩, ⟨7, 0, mkRat 1 1, mkRat 1 1⟩],
       [⟨5, 7, mkRat 1 1, mkRat 1 1⟩, ⟨7, 0, mkRat 0 1, mkRat 1 1⟩]], 0, 0, 0⟩

/-- Uninitialized row memory that happens to read back as probability `≈ 0`
with cumulative bound `≈ 1`. -/
def junkFull : MarkovEntry := ⟨0, 0, mkRat 0 1, mkRat 1 1⟩

/-- A well-formed but incomplete specification: row 0 supplies one
probability for `n = 2`. -/
def incompleteSpec : String := "<1|0<2|0,1"

/-- The graph the C code builds from `incompleteSpec` when the
uninitialized cell `tmp[0][1]` holds `junkFull`: its first row carries no
positive probability at all. -/
def incompleteGraph : MarkovGraph :=
  ⟨2, [[⟨1, 1, mkRat 0 1, mkRat 0 1⟩, ⟨2, 0, mkRat 0 1, mkRat 1 1⟩],
       [⟨1, 2, mkRat 0 1, mkRat 0 1⟩, ⟨2, 0, mkRat 1 1, mkRat 1 1⟩]], 0, 0, 0⟩

/-- C1 counterexample, two failure modes of the original claim.
(i) The specification `<5|0,1<7|1,0` builds successfully (its first row is
`P = (0, 1)` with bounds `(0, 1)`), yet at the draw `r = 0` — a value
`rand()/RAND_MAX` can produce and which lies in `[0,1]` — the forward scan
stops at column 0 (its bound `0 ≥ r`) and the backward tie-break walk,
looking for a nonzero probability at or before column 0, decrements past
the start of the row: `markov_graph_next` reads `tmp[cur_row][-1]` out of
bounds (modelled as `none`).
(ii) The incomplete specification `<1|0<2|0,1` also builds successfully
when the uninitialized cell `tmp[0][1]` happens to hold a bound `≈ 1` with
probability `≈ 0`; its first row then has no positive-probability column,
and already at the draw `r = 1/2 > 0` the backward walk underflows the row.
So the claim holds neither for every draw in `[0,1]` nor for every
successfully built graph. -/
theorem markov_next_tiebreak_counterexample :
    markov_graph_init defaultEntry zeroLeadSpec = some zeroLeadGraph ∧
    specWF zeroLeadSpec = true ∧ specComplete zeroLeadSpec = true ∧
    (mkRat 0 1 : ℚ) = 0 ∧
    markov_graph_next zeroLeadGraph (mkRat 0 1) = none ∧
    markov_graph_init junkFull incompleteSpec = some incompleteGraph ∧
    specWF incompleteSpec = true ∧
    (mkRat 1 2 : ℚ) = 1 / 2 ∧
    markov_graph_next incompleteGraph (mkRat 1 2) = none := by
  refine ⟨by decide, by decide, by decide, mkRat_zero_one, by decide, by decide, by decide,
    ?_, by decide⟩
  rw [Rat.mkRat_eq_div]
  norm_num

/-- Witness for C1 (amended) on the same graph at the draw `r = 1/2`:
the scan stops at column 1 (bound 1 ≥ 1/2) and the walk selects column 1,
whose probability is 1. -/
theorem markov_next_tiebreak_witness :
    ∃ j, markov_graph_next { zeroLeadGraph with cur_row := 0 } (mkRat 1 2)
          = some (((zeroLeadGraph.entrys.getD j []).getD 0 defaultEntry).len,
              { zeroLeadGraph with cur_row := j }) ∧
      FloatEqualZero ((zeroLeadGraph.entrys.getD 0 []).getD j defaultEntry).prob = false ∧
      j < scanCells (mkRat 1 2) ((zeroLeadGraph.entrys.getD 0 []).take zeroLeadGraph.count) 0 ∧
      ∀ i, j < i →
        i < scanCells (mkRat 1 2) ((zeroLeadGraph.entrys.getD 0 []).take zeroLeadGraph.count) 0 →
        FloatEqualZero ((zeroLeadGraph.entrys.getD 0 []).getD i defaultEntry).prob = true := by
  have e12 : (mkRat 1 2 : ℚ) = 1 / 2 := by rw [Rat.mkRat_eq_div]; norm_num
  exact markov_next_tiebreak_amended defaultEntry zeroLeadSpec zeroLeadGraph (by decide)
    (by decide) (by decide) 0 (by decide) (mkRat 1 2) (by rw [e12]; norm_num)
    (by rw [e12]; norm_num) (Or.inl (by rw [e12]; norm_num))

/-! ## C4: characterization of construction failure -/

/-- The probability values of a token list, `none` if any token fails
`strtof` with full consumption. -/
def parseTokens : List (List Char) → Option (List ℚ)
  | [] => some []
  | t :: ts =>
    match strtofQ t with
    | none => none
    | some p => (parseTokens ts).map (fun ps => p :: ps)

/-- The cumulative bounds a probability list produces, by the code's
recurrence. -/
def boundsOf (prev : ℚ) : List ℚ → List ℚ
  | [] => []
  | p :: ps => nextBound p prev :: boundsOf (nextBound p prev) ps

/-- The conditions under which the token loop itself errors out, relative
to a starting cumulative total: a malformed numeric token, a probability
out of range (negative, or above 1 beyond the 1e-5 tolerance), or a
cumulative bound above 1 beyond the tolerance. -/
def PPFail (prev : ℚ) (toks : List (List Char)) : Prop :=
  (∃ t ∈ toks, strtofQ t = none) ∨
  (∃ t ∈ toks, ∃ p, strtofQ t = some p ∧ (p < 0 ∨ 1 / 100000 < p - 1)) ∨
  (∃ ps, parseTokens toks = some ps ∧ ∃ b ∈ boundsOf prev ps, 1 / 100000 < b - 1)

/-- The four specification-error conditions of one row, for a matrix of
`n` declarations: malformed token, probability out of range, cumulative
bound overflowing 1, or the bound at column `n - 1` falling short of 1 by
more than the tolerance. -/
def RowFails (n : ℕ) (toks : List (List Char)) : Prop :=
  PPFail 0 toks ∨
  (∃ ps, parseTokens toks = some ps ∧ 1 / 100000 < 1 - (boundsOf 0 ps).getD (n - 1) 0)

theorem parseTokens_none_iff :
    ∀ toks, parseTokens toks = none ↔ ∃ t ∈ toks, strtofQ t = none := by
  intro toks
  induction toks with
  | nil =>
    constructor
    · intro h; exact absurd h (by simp [parseTokens])
    · rintro ⟨t, ht, _⟩; simp at ht
  | cons t ts ih =>
    unfold parseTokens
    cases hs : strtofQ t with
    | none =>
      exact ⟨fun _ => ⟨t, by simp, hs⟩, fun _ => rfl⟩
    | some p =>
      rw [Option.map_eq_none', ih]
      constructor
      · rintro ⟨t2, ht2, hnone⟩
        exact ⟨t2, by simp [ht2], hnone⟩
      · rintro ⟨t2, ht2, hnone⟩
        rcases (by simpa using ht2 : t2 = t ∨ t2 ∈ ts) with h1 | h1
        · subst h1
          rw [hs] at hnone
          exact absurd hnone (by simp)
        · exact ⟨t2, h1, hnone⟩

/-- The token loop fails exactly on one of the first three specification
errors: a malformed token anywhere in the list, an out-of-range
probability anywhere, or (with every token parsing) an overflowing
cumulative bound. -/
theorem parseProbCells_none_iff (junk : MarkovEntry) :
    ∀ (toks : List (List Char)) (prev : ℚ),
      (parseProbCells junk toks prev = none ↔ PPFail prev toks) := by
  intro toks
  induction toks with
  | nil =>
    intro prev
    constructor
    · intro h
      exact absurd h (by simp [parseProbCells])
    · rintro (⟨t, ht, _⟩ | ⟨t, ht, _⟩ | ⟨ps, hps, b, hb, _⟩)
      · simp at ht
      · simp at ht
      · obtain rfl : ps = [] := by simpa [parseTokens] using hps.symm
        simp [boundsOf] at hb
  | cons t ts ih =>
    intro prev
    unfold parseProbCells
    cases hs : strtofQ t with
    | none =>
      refine ⟨fun _ => Or.inl ⟨t, by simp, hs⟩, fun _ => rfl⟩
    | some p =>
      dsimp only []
      by_cases hr : (FloatLessThanZero p || FloatGreaterThanOne p) = true
      · rw [if_pos hr]
        have hbad : p < 0 ∨ 1 / 100000 < p - 1 := by
          rcases Bool.or_eq_true _ _ |>.mp hr with h1 | h1
          · exact Or.inl ((floatLessThanZero_iff p).mp h1)
          · exact Or.inr ((floatGreaterThanOne_iff p).mp h1)
        exact ⟨fun _ => Or.inr (Or.inl ⟨t, by simp, p, hs, hbad⟩), fun _ => rfl⟩
      · rw [if_neg hr]
        have hor : FloatLessThanZero p = false ∧ FloatGreaterThanOne p = false := by
          cases h1 : FloatLessThanZero p <;> cases h2 : FloatGreaterThanOne p <;>
            rw [h1, h2] at hr <;> simp_all
        have hgood : ¬(p < 0 ∨ 1 / 100000 < p - 1) := by
          push_neg
          exact ⟨(floatLessThanZero_eq_false_iff p).mp hor.1,
            (floatGreaterThanOne_eq_false_iff p).mp hor.2⟩
        by_cases hb : FloatGreaterThanOne (nextBound p prev) = true
        · rw [if_pos hb]
          have hbbad : 1 / 100000 < nextBound p prev - 1 := (floatGreaterThanOne_iff _).mp hb
          refine ⟨fun _ => ?_, fun _ => rfl⟩
          cases hpt : parseTokens ts with
          | none =>
            obtain ⟨t2, ht2, hn2⟩ := (parseTokens_none_iff ts).mp hpt
            exact Or.inl ⟨t2, by simp [ht2], hn2⟩
          | some ps2 =>
            refine Or.inr (Or.inr ⟨p :: ps2, ?_, nextBound p prev, by simp [boundsOf], hbbad⟩)
            unfold parseTokens
            rw [hs, hpt]
            rfl
        · rw [if_neg hb]
          have hbgood : ¬(1 / 100000 < nextBound p prev - 1) := by
            rw [not_lt]
            exact (floatGreaterThanOne_eq_false_iff _).mp (Bool.eq_false_iff.mpr hb)
          rw [Option.map_eq_none', ih (nextBound p prev)]
          constructor
          · rintro (⟨t2, ht2, hn2⟩ | ⟨t2, ht2, p2, hp2, hbad2⟩ | ⟨ps2, hps2, b2, hbm2, hbad2⟩)
            · exact Or.inl ⟨t2, by simp [ht2], hn2⟩
            · exact Or.inr (Or.inl ⟨t2, by simp [ht2], p2, hp2, hbad2⟩)
            · refine Or.inr (Or.inr ⟨p :: ps2, ?_, b2, by simp [boundsOf, hbm2], hbad2⟩)
              unfold parseTokens
              rw [hs, hps2]
              rfl
          · rintro (⟨t2, ht2, hn2⟩ | ⟨t2, ht2, p2, hp2, hbad2⟩ | ⟨ps2, hps2, b2, hbm2, hbad2⟩)
            · rcases (by simpa using ht2 : t2 = t ∨ t2 ∈ ts) with h1 | h1
              · subst h1
                rw [hs] at hn2
                exact absurd hn2 (by simp)
              · exact Or.inl ⟨t2, h1, hn2⟩
            · rcases (by simpa using ht2 : t2 = t ∨ t2 ∈ ts) with h1 | h1
              · subst h1
                rw [hs] at hp2
                obtain rfl : p = p2 := by simpa using hp2
                exact absurd hbad2 hgood
              · exact Or.inr (Or.inl ⟨t2, h1, p2, hp2, hbad2⟩)
            · have hps3 : ∃ ps3, parseTokens ts = some ps3 ∧ ps2 = p :: ps3 := by
                unfold parseTokens at hps2
                rw [hs] at hps2
                cases hpt : parseTokens ts with
                | none => rw [hpt] at hps2; simp at hps2
                | some ps4 =>
                  rw [hpt] at hps2
                  exact ⟨ps4, rfl, by simpa using hps2.symm⟩
              obtain ⟨ps3, hps3, rfl⟩ := hps3
              rcases (by simpa [boundsOf] using hbm2 :
                  b2 = nextBound p prev ∨ b2 ∈ boundsOf (nextBound p prev) ps3) with h1 | h1
              · subst h1
                exact absurd hbad2 hbgood
              · exact Or.inr (Or.inr ⟨ps3, hps3, b2, h1, hbad2⟩)

/-- A successful token-loop run produces exactly the bounds of `boundsOf`
on the parsed probabilities. -/
theorem parseProbCells_bounds (junk : MarkovEntry) :
    ∀ (toks : List (List Char)) (prev : ℚ) (cells : List MarkovEntry),
      parseProbCells junk toks prev = some cells →
      ∃ ps, parseTokens toks = some ps ∧
        cells.map (fun c => c.prob_bound) = boundsOf prev ps := by
  intro toks
  induction toks with
  | nil =>
    intro prev cells h
    obtain rfl : cells = [] := by simpa [parseProbCells] using h.symm
    exact ⟨[], rfl, rfl⟩
  | cons t ts ih =>
    intro prev cells h
    unfold parseProbCells at h
    cases hs : strtofQ t with
    | none => rw [hs] at h; simp at h
    | some p =>
      rw [hs] at h
      dsimp only [] at h
      by_cases hr : (FloatLessThanZero p || FloatGreaterThanOne p) = true
      · rw [if_pos hr] at h; simp at h
      · rw [if_neg hr] at h
        by_cases hb : FloatGreaterThanOne (nextBound p prev) = true
        · rw [if_pos hb] at h; simp at h
        · rw [if_neg hb] at h
          cases hrec : parseProbCells junk ts (nextBound p prev) with
          | none => rw [hrec] at h; simp at h
          | some cs =>
            rw [hrec] at h
            obtain rfl : { junk with prob := p, prob_bound := nextBound p prev } :: cs
                = cells := by simpa using h
            obtain ⟨ps, hps, hmap⟩ := ih (nextBound p prev) cs hrec
            refine ⟨p :: ps, ?_, ?_⟩
            · unfold parseTokens
              rw [hs, hps]
              rfl
            · show nextBound p prev :: cs.map (fun c => c.prob_bound) = _
              rw [hmap]
              rfl

theorem getD_map_bound :
    ∀ (cells : List MarkovEntry) (bs : List ℚ) (i : ℕ) (d : MarkovEntry),
      cells.map (fun c => c.prob_bound) = bs → i < cells.length →
      (cells.getD i d).prob_bound = bs.getD i 0 := by
  intro cells
  induction cells with
  | nil => intro bs i d _ hi; simp at hi
  | cons c t ih =>
    intro bs i d hmap hi
    obtain rfl : c.prob_bound :: t.map (fun x => x.prob_bound) = bs := by simpa using hmap
    cases i with
    | zero => rfl
    | succ j => exact ih _ j d rfl (by simpa using hi)

/-- One row fails to build exactly when one of the four specification-error
conditions holds for its token list (given its segment has a `'|'` and
supplies at least `count ≥ 1` tokens). -/
theorem buildRow_none_iff (junk : MarkovEntry) (count : ℕ) (seg : List Char)
    (hsp : (splitAtFirst '|' seg).isSome = true)
    (hcomp : count ≤ (toksOfSeg seg).length) (hcnt : 1 ≤ count) :
    (buildRow junk count seg = none ↔ RowFails count (toksOfSeg seg)) := by
  obtain ⟨pr, hpr⟩ := Option.isSome_iff_exists.mp hsp
  have htoks : toksOfSeg seg = tokenize ',' pr.2 := by
    unfold toksOfSeg
    rw [hpr]
  unfold buildRow
  rw [hpr]
  dsimp only []
  cases hpc : parseProbCells junk (tokenize ',' pr.2) (mkRat 0 1) with
  | none =>
    have hfail : PPFail 0 (toksOfSeg seg) := by
      rw [htoks]
      have h2 := (parseProbCells_none_iff junk _ (mkRat 0 1)).mp hpc
      rwa [mkRat_zero_one] at h2
    exact ⟨fun _ => Or.inl hfail, fun _ => rfl⟩
  | some cells =>
    dsimp only []
    have hnofail : ¬ PPFail 0 (toksOfSeg seg) := by
      rw [htoks]
      intro hf
      rw [← mkRat_zero_one] at hf
      have h2 := (parseProbCells_none_iff junk _ (mkRat 0 1)).mpr hf
      rw [hpc] at h2
      exact absurd h2 (by simp)
    obtain ⟨ps, hps, hmapb⟩ := parseProbCells_bounds junk _ _ cells hpc
    obtain ⟨hlen, _, _⟩ := parseProbCells_facts junk _ _ cells hpc
    have hclen : count ≤ cells.length := by
      rw [hlen, ← htoks]
      exact hcomp
    have hguard : ((setRowLabel (atoiZ pr.1) (rowOf junk count cells)).getD (count - 1)
        defaultEntry).prob_bound = (boundsOf 0 ps).getD (count - 1) 0 := by
      rw [setRowLabel_getD_bound, rowOf_eq_take junk count cells hclen,
        getD_take cells count (count - 1) defaultEntry (by omega),
        getD_map_bound cells (boundsOf (mkRat 0 1) ps) (count - 1) defaultEntry hmapb (by omega),
        mkRat_zero_one]
    by_cases hfin : FloatLessThanOne ((setRowLabel (atoiZ pr.1)
        (rowOf junk count cells)).getD (count - 1) defaultEntry).prob_bound = true
    · rw [if_pos hfin]
      have hcond4 : 1 / 100000 < 1 - (boundsOf 0 ps).getD (count - 1) 0 := by
        rw [← hguard]
        exact (floatLessThanOne_iff _).mp hfin
      exact ⟨fun _ => Or.inr ⟨ps, by rw [htoks]; exact hps, hcond4⟩, fun _ => rfl⟩
    · rw [if_neg hfin]
      constructor
      · intro h
        simp at h
      · rintro (hf | ⟨ps2, hps2, hcond4⟩)
        · exact absurd hf hnofail
        · rw [htoks, hps] at hps2
          obtain rfl : ps = ps2 := by simpa using hps2
          exfalso
          have h2 := (floatLessThanOne_eq_false_iff _).mp (Bool.eq_false_iff.mpr hfin)
          rw [hguard] at h2
          linarith

/-- The row loop of `markov_graph_init` fails exactly when some segment's
row fails. -/
theorem buildRows_none_iff (junk : MarkovEntry) (count : ℕ) :
    ∀ (segs : List (List Char)),
      (∀ seg ∈ segs, (splitAtFirst '|' seg).isSome = true) →
      (∀ seg ∈ segs, count ≤ (toksOfSeg seg).length) → 1 ≤ count →
      (buildRows junk count segs = none ↔
        ∃ seg ∈ segs, RowFails count (toksOfSeg seg)) := by
  intro segs
  induction segs with
  | nil =>
    intro _ _ _
    constructor
    · intro h
      exact absurd h (by simp [buildRows])
    · rintro ⟨seg, hseg, _⟩
      simp at hseg
  | cons seg rest ih =>
    intro hwf hcomp hcnt
    unfold buildRows
    cases hbr : buildRow junk count seg with
    | none =>
      have hf : RowFails count (toksOfSeg seg) :=
        (buildRow_none_iff junk count seg (hwf seg (by simp)) (hcomp seg (by simp)) hcnt).mp hbr
      exact ⟨fun _ => ⟨seg, by simp, hf⟩, fun _ => rfl⟩
    | some row =>
      dsimp only []
      rw [Option.map_eq_none', ih (fun s hs => hwf s (by simp [hs]))
        (fun s hs => hcomp s (by simp [hs])) hcnt]
      constructor
      · rintro ⟨s2, hs2, hf⟩
        exact ⟨s2, by simp [hs2], hf⟩
      · rintro ⟨s2, hs2, hf⟩
        rcases (by simpa using hs2 : s2 = seg ∨ s2 ∈ rest) with h1 | h1
        · subst h1
          have h2 := (buildRow_none_iff junk count s2 (hwf s2 (by simp))
            (hcomp s2 (by simp)) hcnt).mpr hf
          rw [hbr] at h2
          exact absurd h2 (by simp)
        · exact ⟨s2, h1, hf⟩

/-- C4 (amended): for a well-formed specification whose rows each supply at
least `n` probability tokens, `markov_graph_init` returns failure exactly
when some row satisfies one of the four conditions: a probability token does
not fully parse as a number, a probability is negative or exceeds 1 by more
than the 1e-5 tolerance, a cumulative bound exceeds 1 by more than the
tolerance, or the bound at column `n - 1` falls short of 1 by more than the
tolerance.  On every failure the partial graph is discarded (`none` is
returned).  For a row supplying fewer than `n` probabilities the warning is
indeed non-fatal by itself, but the final check then reads the row's
uninitialized last cell, so success depends on indeterminate memory (see the
counterexample) rather than being guaranteed. -/
theorem markov_init_failure_amended :
    ∀ (junk : MarkovEntry) (s : String), specWF s = true → specComplete s = true →
      (markov_graph_init junk s = none ↔
        ∃ seg ∈ segsOf s, RowFails (segsOf s).length (toksOfSeg seg)) := by
  intro junk s hwf hcomp
  have hwf2 : ∀ seg ∈ segsOf s, (splitAtFirst '|' seg).isSome = true := by
    intro seg hseg
    have hall := (List.all_eq_true.mp (Bool.and_eq_true _ _ |>.mp hwf).2) seg hseg
    cases hsp : splitAtFirst '|' seg with
    | none => rw [hsp] at hall; simp at hall
    | some pr => rfl
  have hcomp2 : ∀ seg ∈ segsOf s, (segsOf s).length ≤ (toksOfSeg seg).length := by
    intro seg hseg
    have hall := (List.all_eq_true.mp hcomp) seg hseg
    cases hsp : splitAtFirst '|' seg with
    | none => rw [hsp] at hall; simp at hall
    | some pr =>
      rw [hsp] at hall
      unfold toksOfSeg
      rw [hsp]
      simpa using hall
  have hseq : segsOf s = tokenize '<' (deblank s.data) := rfl
  unfold markov_graph_init
  by_cases h0 : (tokenize '<' (deblank s.data)).length = 0
  · rw [if_pos h0]
    have hsegs : segsOf s = [] := by
      rw [hseq]
      exact List.length_eq_zero.mp h0
    constructor
    · intro h
      simp at h
    · rintro ⟨seg, hseg, _⟩
      rw [hsegs] at hseg
      simp at hseg
  · rw [if_neg h0]
    have hiff := buildRows_none_iff junk (tokenize '<' (deblank s.data)).length
      (tokenize '<' (deblank s.data)) (by rw [← hseq]; exact hwf2)
      (by rw [← hseq]; exact hcomp2) (by omega)
    cases hbr : buildRows junk (tokenize '<' (deblank s.data)).length
        (tokenize '<' (deblank s.data)) with
    | none =>
      rw [hbr] at hiff
      refine ⟨fun _ => by rw [hseq]; exact hiff.mp rfl, fun _ => rfl⟩
    | some rows =>
      rw [hbr] at hiff
      constructor
      · intro h
        simp at h
      · intro hf
        exfalso
        have h2 : (some rows : Option (List (List MarkovEntry))) = none := hiff.mpr
          (by rw [← hseq]; exact hf)
        exact absurd h2 (by simp)

/-- C4 counterexample: (i) the probability token `1.000005` of `<1|1.000005`
parses to a value outside `[0,1]`, yet construction succeeds — the range
check only rejects an excess beyond `1e-5`, so "a probability outside
`[0,1]`" does not imply failure; (ii) on `<1|1<2|0.5,0.5` (same parsed
content both times) construction succeeds with one uninitialized-memory
content and fails with another, so a short row's warning is not by itself
harmless: failure is then not determined by the four claimed conditions. -/
theorem markov_init_failure_counterexample :
    (markov_graph_init defaultEntry tolSpec).isSome = true ∧
    strtofQ "1.000005".data = some (mkRat 200001 200000) ∧
    1 < (mkRat 200001 200000 : ℚ) ∧
    (markov_graph_init junkBad shortSpec).isSome = true ∧
    markov_graph_init defaultEntry shortSpec = none := by
  refine ⟨by decide, by decide, ?_, by decide, by decide⟩
  rw [Rat.mkRat_eq_div]
  norm_num

/-- Witness for C4 (amended): the failure characterization instantiated on
the example specification, which satisfies the well-formedness and
completeness hypotheses. -/
theorem markov_init_failure_witness :
    markov_graph_init defaultEntry exSpec = none ↔
      ∃ seg ∈ segsOf exSpec, RowFails (segsOf exSpec).length (toksOfSeg seg) :=
  markov_init_failure_amended defaultEntry exSpec (by decide) (by decide)
